import Mathlib

/-!
Verification development for the split-penalty annotation pass of a
source-code reformatter (file `yapf/yapflib/split_penalty.py`).

The pass walks a concrete syntax tree (lib2to3 `pytree`) and attaches a
numeric `SPLIT_PENALTY` annotation to tokens.  We embed the tree shallowly:

* `PyTree` mirrors `pytree.Leaf` / `pytree.Node`.  A leaf stores its token
  type name (what `pytree_utils.NodeName` returns for it), its text value
  and its annotation slot; an interior node stores its production name, an
  annotation slot (pytree allows annotations on any node, although this
  pass only ever writes to leaves plus the one `comp_if` clear) and its
  children.  Children are a nested inductive `PyForest` so that all
  definitions are by plain structural recursion and reduce definitionally.

* The parent back-reference of pytree is used by the source only for
  read-only structural lookahead (`Visit_power`), so the embedding passes
  the parent node down during traversal instead of storing a back edge.

* Machine integers do not overflow here (all penalties are small
  non-negative constants), so annotations are `Option Nat`.
-/

namespace SplitPenaltyModel

mutual

inductive PyTree : Type where
  | leaf (typ : String) (val : String) (ann : Option Nat)
  | node (typ : String) (ann : Option Nat) (children : PyForest)

inductive PyForest : Type where
  | nil : PyForest
  | cons (c : PyTree) (rest : PyForest) : PyForest

end

/-- Penalty constant from the source: never break here. -/
def UNBREAKABLE : Nat := 1000 * 1000

/-- Penalty constant from the source: break only as a last resort. -/
def STRONGLY_CONNECTED : Nat := 1000

/-- Penalty constant from the source: mild discouragement. -/
def ARITHMETIC_EXPRESSION : Nat := 42

/-- Modelled from the spec: `pytree_utils.NodeName` (module not in src/)
returns the production name of an interior node and the token type name of
a leaf; the grammar-dispatch visitor selects rules by this name. -/
def nodeName : PyTree → String
  | .leaf ty _ _ => ty
  | .node ty _ _ => ty

def PyTree.isLeaf : PyTree → Bool
  | .leaf _ _ _ => true
  | .node _ _ _ => false

/-- Token text of a leaf (`Leaf.value`); interior nodes have no text, the
source only ever reads `.value` from leaves on grammar-conformant trees. -/
def value : PyTree → String
  | .leaf _ v _ => v
  | .node _ _ _ => ""

/-- Modelled from the spec: reading the `SPLIT_PENALTY` annotation store of
a node (`pytree_utils.GetNodeAnnotation`, module not in src/); absent is
`none`, matching the source default of `None`. -/
def getAnn : PyTree → Option Nat
  | .leaf _ _ a => a
  | .node _ a _ => a

/-- Modelled from the spec: writing the `SPLIT_PENALTY` annotation store of
a node (`pytree_utils.SetNodeAnnotation`, module not in src/). -/
def setAnn : PyTree → Option Nat → PyTree
  | .leaf ty v _, a => .leaf ty v a
  | .node ty _ cs, a => .node ty a cs

def children : PyTree → PyForest
  | .leaf _ _ _ => .nil
  | .node _ _ cs => cs

def PyForest.length : PyForest → Nat
  | .nil => 0
  | .cons _ rest => 1 + rest.length

/-- A placeholder leaf used to make child indexing total; on
grammar-conformant trees the source never indexes out of range (it would
raise), and all theorems below constrain shapes so this is never reached. -/
def dummy : PyTree := .leaf "" "" none

def PyForest.get : PyForest → Nat → PyTree
  | .nil, _ => dummy
  | .cons c _, 0 => c
  | .cons _ rest, n + 1 => rest.get n

def PyForest.drop : PyForest → Nat → PyForest
  | f, 0 => f
  | .nil, _ + 1 => .nil
  | .cons _ rest, n + 1 => rest.drop n

/-- Result of the guarded annotation write used throughout the source
(`if cur_annotate is None or cur_annotate < v: set v`): an absent slot
becomes `v`, a present slot is raised to the maximum. -/
def omax : Option Nat → Nat → Option Nat
  | none, v => some v
  | some a, v => some (max a v)

/-- A position in a tree: the list of child indices from the root. -/
abbrev Path := List Nat

mutual

/-- The node reached by following a path; `none` when the path leaves the
tree (where the source would raise an IndexError). -/
def nodeAt : PyTree → Path → Option PyTree
  | t, [] => some t
  | .leaf _ _ _, _ :: _ => none
  | .node _ _ cs, i :: p => nodeAtF cs i p

def nodeAtF : PyForest → Nat → Path → Option PyTree
  | .nil, _, _ => none
  | .cons c _, 0, p => nodeAt c p
  | .cons _ rest, n + 1, p => nodeAtF rest n p

end

/-- The annotation slot of the node at a path (`none` = invalid path,
`some none` = node present but no annotation). -/
def annAt (t : PyTree) (p : Path) : Option (Option Nat) :=
  (nodeAt t p).map getAnn

/-- Whether the path reaches a Leaf of the tree. -/
def isLeafAt (t : PyTree) (p : Path) : Bool :=
  match nodeAt t p with
  | some n => n.isLeaf
  | none => false

mutual

/-- Rewrite the annotation slot of the node at a path through `g`;
identity on the rest of the tree and on invalid paths. -/
def updateAnnAt (g : Option Nat → Option Nat) : PyTree → Path → PyTree
  | t, [] => setAnn t (g (getAnn t))
  | .leaf ty va a, _ :: _ => .leaf ty va a
  | .node ty a cs, i :: p => .node ty a (updateAnnAtF g cs i p)

def updateAnnAtF (g : Option Nat → Option Nat) : PyForest → Nat → Path → PyForest
  | .nil, _, _ => .nil
  | .cons c rest, 0, p => .cons (updateAnnAt g c p) rest
  | .cons c rest, n + 1, p => .cons c (updateAnnAtF g rest n p)

end

mutual

/-- Apply a subtree transformation at a path (used to express a helper
call on an inner node of a larger tree); identity on invalid paths. -/
def updateAt (f : PyTree → PyTree) : PyTree → Path → PyTree
  | t, [] => f t
  | .leaf ty va a, _ :: _ => .leaf ty va a
  | .node ty a cs, i :: p => .node ty a (updateAtF f cs i p)

def updateAtF (f : PyTree → PyTree) : PyForest → Nat → Path → PyForest
  | .nil, _, _ => .nil
  | .cons c rest, 0, p => .cons (updateAt f c p) rest
  | .cons c rest, n + 1, p => .cons c (updateAtF f rest n p)

end

mutual

/-- Forget all annotations (the purely structural part of a tree, which no
write of the pass ever changes). -/
def erase : PyTree → PyTree
  | .leaf ty va _ => .leaf ty va none
  | .node ty _ cs => .node ty none (eraseF cs)

def eraseF : PyForest → PyForest
  | .nil => .nil
  | .cons c rest => .cons (erase c) (eraseF rest)

end

/-!
## Direct embeddings of the two recursive write helpers

`_RecAnnotate` and `RecArithmeticExpression` are self-contained recursive
functions of the source; we embed them directly.  The rest of the pass is
embedded as its write trace below (every control decision of the visitor
reads only structural data, never annotations, so the trace is determined
by the erased tree; the two guarded writes are exactly max-merges, proved
in `RecAnnotate_replay` and `SetArithmeticExpression_replay`).
-/

mutual

/-- Direct embedding of `_RecAnnotate(tree, SPLIT_PENALTY, v)`: recurse
into all children, then, when the node is a Leaf, perform the guarded
write `if cur is None or cur < v: set v`, i.e. raise the slot to `omax`.
For a Leaf the child loop is vacuous. -/
def RecAnnotate (v : Nat) : PyTree → PyTree
  | .leaf ty va a => .leaf ty va (omax a v)
  | .node ty a cs => .node ty a (RecAnnotateF v cs)

def RecAnnotateF (v : Nat) : PyForest → PyForest
  | .nil => .nil
  | .cons c rest => .cons (RecAnnotate v c) (RecAnnotateF v rest)

end

/-- Direct embedding of `FirstChildNode`: leftmost descent through
`children[0]` until a Leaf; `none` when an interior node on that spine has
no children (where the source would raise an IndexError). -/
def FirstChildNode : PyTree → Option PyTree
  | .leaf ty va a => some (.leaf ty va a)
  | .node _ _ (.cons c _) => FirstChildNode c
  | .node _ _ .nil => none

/-- The path of the leftmost, deepest leaf (the node `FirstChildNode`
returns), or `none` when it does not exist. -/
def leftmostLeafPath : PyTree → Option Path
  | .leaf _ _ _ => some []
  | .node _ _ (.cons c _) => (leftmostLeafPath c).map (fun p => 0 :: p)
  | .node _ _ .nil => none

mutual

/-- Direct embedding of `RecArithmeticExpression(node, first_child_leaf)`.
The source skips the node that is identical (`is`) to the first child
leaf; since that object is exactly the node reached by leftmost descent,
the embedding threads a flag that is true precisely on that spine.  At
every other leaf the source evaluates
`GetNodeAnnotation(...) < ARITHMETIC_EXPRESSION` where the left side may
be the absent value `None`; under the CPython 2 ordering (`None` below
every int) the guarded write is again a raise to `omax` (the absent-value
comparison itself is the subject of `RecArithComparesAbsent`). -/
def RecArithmeticExpression (skip : Bool) : PyTree → PyTree
  | .leaf ty va a =>
      if skip then .leaf ty va a
      else .leaf ty va (omax a ARITHMETIC_EXPRESSION)
  | .node ty a cs => .node ty a (RecArithmeticExpressionF skip cs)

def RecArithmeticExpressionF (skip : Bool) : PyForest → PyForest
  | .nil => .nil
  | .cons c rest =>
      .cons (RecArithmeticExpression skip c) (RecArithmeticExpressionF false rest)

end

/-- Direct embedding of `_SetArithmeticExpression(node)`:
`RecArithmeticExpression(node, FirstChildNode(node))`. -/
def SetArithmeticExpression (t : PyTree) : PyTree :=
  RecArithmeticExpression true t

mutual

/-- Instrumentation of `RecArithmeticExpression`: true exactly when some
leaf it processes (i.e. some leaf other than the first child leaf) has an
absent annotation, so that the comparison
`GetNodeAnnotation(node, SPLIT_PENALTY) < ARITHMETIC_EXPRESSION` is
evaluated with `None` as its left operand. -/
def RecArithComparesAbsent (skip : Bool) : PyTree → Bool
  | .leaf _ _ a => if skip then false else a.isNone
  | .node _ _ cs => RecArithComparesAbsentF skip cs

def RecArithComparesAbsentF (skip : Bool) : PyForest → Bool
  | .nil => false
  | .cons c rest =>
      RecArithComparesAbsent skip c || RecArithComparesAbsentF false rest

end

mutual

/-- Instrumentation of `_RecAnnotate`: true when its comparison
`cur_annotate < annotate_value` is evaluated with `None` as the left
operand.  The source guard is `cur_annotate is None or cur_annotate < v`,
so when the slot is absent the first disjunct short-circuits and the
comparison never sees `None`; otherwise the compared value is an integer.
Hence both branches contribute `false`. -/
def RecAnnotateComparesAbsent (v : Nat) : PyTree → Bool
  | .leaf _ _ a =>
      match a with
      | none => false
      | some _ => false
  | .node _ _ cs => RecAnnotateComparesAbsentF v cs

def RecAnnotateComparesAbsentF (v : Nat) : PyForest → Bool
  | .nil => false
  | .cons c rest =>
      RecAnnotateComparesAbsent v c || RecAnnotateComparesAbsentF v rest

end

/-!
## The pass as a write trace

Every annotation write of the visitor is an event: a monotone raise
(`_RecAnnotate` / `RecArithmeticExpression` at one leaf) or the single
explicit clear of `Visit_comp_if`.  Event paths are relative to the node
the rule runs on and are shifted when emitted from a child.
-/

inductive PEvent : Type where
  | raiseTo (p : Path) (v : Nat)
  | clear (p : Path)
deriving DecidableEq

def PEvent.target : PEvent → Path
  | .raiseTo p _ => p
  | .clear p => p

def shiftE (i : Nat) : PEvent → PEvent
  | .raiseTo p v => .raiseTo (i :: p) v
  | .clear p => .clear (i :: p)

def shift (i : Nat) (es : List PEvent) : List PEvent :=
  es.map (shiftE i)

/-- Replay one write on the tree: a raise applies the guarded max-merge
write to the slot at its path, the clear sets the slot to absent. -/
def applyEvent (t : PyTree) : PEvent → PyTree
  | .raiseTo p v => updateAnnAt (fun a => omax a v) t p
  | .clear p => updateAnnAt (fun _ => none) t p

def applyEvents (t : PyTree) (es : List PEvent) : PyTree :=
  es.foldl applyEvent t

mutual

/-- Write trace of `_RecAnnotate(tree, SPLIT_PENALTY, v)`: one raise per
leaf of the subtree, children first, in order. -/
def RecAnnotateEv (v : Nat) : PyTree → List PEvent
  | .leaf _ _ _ => [.raiseTo [] v]
  | .node _ _ cs => RecAnnotateEvF v 0 cs

def RecAnnotateEvF (v : Nat) (i : Nat) : PyForest → List PEvent
  | .nil => []
  | .cons c rest => shift i (RecAnnotateEv v c) ++ RecAnnotateEvF v (i + 1) rest

end

mutual

/-- Write trace of `RecArithmeticExpression`: one raise to
`ARITHMETIC_EXPRESSION` per leaf other than the first child leaf
(see `RecArithmeticExpression` for the skip-flag encoding). -/
def RecArithEv (skip : Bool) : PyTree → List PEvent
  | .leaf _ _ _ => if skip then [] else [.raiseTo [] ARITHMETIC_EXPRESSION]
  | .node _ _ cs => RecArithEvF skip 0 cs

def RecArithEvF (skip : Bool) (i : Nat) : PyForest → List PEvent
  | .nil => []
  | .cons c rest => shift i (RecArithEv skip c) ++ RecArithEvF false (i + 1) rest

end

/-- Trace of `_SetStronglyConnected(*node.children[k:])`: strongly connect
each listed child subtree in order (the forest argument is the suffix of
the children starting at index `i`). -/
def scChildrenFromEv : Nat → PyForest → List PEvent
  | _, .nil => []
  | i, .cons c rest =>
      shift i (RecAnnotateEv STRONGLY_CONNECTED c) ++ scChildrenFromEv (i + 1) rest

/-- Trace of the marking loop of `_SetUnbreakableOnChildren`
(`for i in range(1, num_children): self._SetUnbreakable(node.children[i])`):
`k` children are marked starting at index `i`. -/
def markUnbreakableEv (cs : PyForest) : Nat → Nat → List PEvent
  | _, 0 => []
  | i, k + 1 =>
      shift i (RecAnnotateEv UNBREAKABLE (cs.get i)) ++ markUnbreakableEv cs (i + 1) k

/-- Scan helper for `Visit_funcdef`: advance an index while the condition
holds, with explicit fuel (the source loops are bounded by the child count
on grammar-conformant trees). -/
def scanIdx (p : Nat → Bool) : Nat → Nat → Nat
  | i, 0 => i
  | i, n + 1 => if p i then scanIdx p (i + 1) n else i

/-- `Visit_power`: whether the chain is wrapped in an enclosing
parenthesized atom (`surrounded_by_parens` in the source, which reads the
parent back-reference; the embedding receives the parent node). -/
def surroundedByParens : Option PyTree → Bool
  | none => false
  | some par =>
      nodeName par == "atom" &&
      ((children par).get 0).isLeaf && value ((children par).get 0) == "(" &&
      ((children par).get ((children par).length - 1)).isLeaf &&
      value ((children par).get ((children par).length - 1)) == ")"

/-- Trace of the consecutive-trailer loop of `Visit_power` (the `while`
over `prev_trailer_idx`): `prev` is the current previous-trailer index and
the fuel is `len(children) - 1 - prev`, so the loop runs exactly while
`prev < len(children) - 1`.  For a pair of consecutive trailers: the last
token of the previous trailer is forced unbreakable unless its text is a
closing paren, and when the chain is not surrounded by parentheses the
first token of the current trailer is forced unbreakable. -/
def powerMiddleEv (cs : PyForest) (sur : Bool) : Nat → Nat → List PEvent
  | _, 0 => []
  | prev, k + 1 =>
      let curT := cs.get (prev + 1)
      if nodeName curT = "trailer" then
        (let prevT := cs.get prev
         let lastIdx := (children prevT).length - 1
         (if value ((children prevT).get lastIdx) ≠ ")" then
            shift prev (shift lastIdx
              (RecAnnotateEv UNBREAKABLE ((children prevT).get lastIdx)))
          else []) ++
         (if !sur then
            shift (prev + 1) (shift 0 (RecAnnotateEv UNBREAKABLE ((children curT).get 0)))
          else [])) ++ powerMiddleEv cs sur (prev + 1) k
      else []

/-- Trace of the final loop of `Visit_power`
(`for trailer in node.children[1:]`): stop at the first non-trailer; for a
call trailer with a non-empty argument list (opens with a left paren and
has more than two children) force its own closing paren unbreakable. -/
def powerLastEv : Nat → PyForest → List PEvent
  | _, .nil => []
  | i, .cons tr rest =>
      if nodeName tr = "trailer" then
        (if value ((children tr).get 0) = "(" ∧ 2 < (children tr).length then
           shift i (shift ((children tr).length - 1)
             (RecAnnotateEv UNBREAKABLE ((children tr).get ((children tr).length - 1))))
         else []) ++ powerLastEv (i + 1) rest
      else []

mutual

/-- Size measure used for the termination of the visitor. -/
def sizeT : PyTree → Nat
  | .leaf _ _ _ => 1
  | .node _ _ cs => 1 + sizeF cs

def sizeF : PyForest → Nat
  | .nil => 0
  | .cons c rest => 1 + sizeT c + sizeF rest

end

theorem sizeF_children_lt (t : PyTree) : sizeF (children t) < sizeT t := by
  cases t <;> simp [children, sizeT, sizeF]

mutual

/-- Write trace of `_TreePenaltyAssigner.Visit(node)` run with the given
parent: grammar dispatch on the node name to the matching `Visit_*` rule,
default child recursion otherwise, nothing for a plain leaf.  Modelled
from the spec: the dispatcher itself (`pytree_visitor`, module not in
src/) selects `Visit_{name}` when defined, else visits children in order
for an interior node and takes no action on a leaf.  Each arm mirrors the
corresponding `Visit_*` method of the source in its exact operation
order. -/
def visitEv (par : Option PyTree) (t : PyTree) : List PEvent :=
  let cs := children t
  let n := cs.length
  if nodeName t = "classdef" then
    -- NAME; opening paren of the base-class list if present; colon; recurse
    shift 1 (RecAnnotateEv UNBREAKABLE (cs.get 1)) ++
    (if 4 < n then shift 2 (RecAnnotateEv UNBREAKABLE (cs.get 2)) else []) ++
    shift (n - 2) (RecAnnotateEv UNBREAKABLE (cs.get (n - 2))) ++
    visitEvChildren t 0 cs
  else if nodeName t = "funcdef" then
    -- skip leading simple statements; mark the name; scan to the colon
    let i1 := scanIdx (fun i => nodeName (cs.get i) == "simple_stmt") 1 n
    let i2 := scanIdx
      (fun i => i < n && !((cs.get i).isLeaf && value (cs.get i) == ":")) i1 n
    shift i1 (RecAnnotateEv UNBREAKABLE (cs.get i1)) ++
    shift i2 (RecAnnotateEv UNBREAKABLE (cs.get i2)) ++
    visitEvChildren t 0 cs
  else if nodeName t = "lambdef" then
    -- visit all children, then mark children 1 .. num_children-1
    let num := if nodeName (cs.get 1) ≠ "COLON" then 3 else 2
    visitEvChildren t 0 cs ++ markUnbreakableEv cs 1 (num - 1)
  else if nodeName t = "parameters" then
    visitEvChildren t 0 cs ++
    shift 0 (RecAnnotateEv UNBREAKABLE (cs.get 0)) ++
    (if n = 2 then shift 1 (RecAnnotateEv STRONGLY_CONNECTED (cs.get 1)) else [])
  else if nodeName t = "dotted_name" then
    visitEvChildren t 0 cs ++ markUnbreakableEv cs 1 (n - 1)
  else if nodeName t = "dictsetmaker" then
    dictsetEv t 0 none cs
  else if nodeName t = "comparison" then
    visitEvChildren t 0 cs ++ RecArithEv true t
  else if nodeName t = "arith_expr" then
    visitEvChildren t 0 cs ++ RecArithEv true t
  else if nodeName t = "term" then
    visitEvChildren t 0 cs ++ RecArithEv true t
  else if nodeName t = "trailer" then
    visitEvChildren t 0 cs ++
    (if value (cs.get 0) = "." then
       shift 0 (RecAnnotateEv STRONGLY_CONNECTED (cs.get 0)) ++
       shift (n - 1) (RecAnnotateEv STRONGLY_CONNECTED (cs.get (n - 1)))
     else if value (cs.get 0) = "[" then
       shift (n - 1) (RecAnnotateEv STRONGLY_CONNECTED (cs.get (n - 1)))
     else [])
  else if nodeName t = "power" then
    visitEvChildren t 0 cs ++
    (let sur := surroundedByParens par
     (if 1 < n ∧ nodeName (cs.get 1) = "trailer" then
        shift 1 (shift 0 (RecAnnotateEv UNBREAKABLE ((children (cs.get 1)).get 0))) ++
        powerMiddleEv cs sur 1 (n - 1 - 1)
      else []) ++
     powerLastEv 1 (cs.drop 1))
  else if nodeName t = "subscript" then
    scChildrenFromEv 0 cs ++ visitEvChildren t 0 cs
  else if nodeName t = "comp_for" then
    scChildrenFromEv 1 (cs.drop 1) ++ visitEvChildren t 0 cs
  else if nodeName t = "comp_if" then
    -- explicit clear of the leading token, then strongly connect the rest
    PEvent.clear [0] :: (scChildrenFromEv 1 (cs.drop 1) ++ visitEvChildren t 0 cs)
  else if t.isLeaf then [] else visitEvChildren t 0 cs
termination_by sizeT t
decreasing_by
  all_goals simp_wf
  all_goals have h := sizeF_children_lt t
  all_goals omega

/-- Write trace of `DefaultNodeVisit`: visit each child in order, the
current node becoming the parent. -/
def visitEvChildren (par : PyTree) (i : Nat) : PyForest → List PEvent
  | .nil => []
  | .cons c rest => shift i (visitEv (some par) c) ++ visitEvChildren par (i + 1) rest
termination_by f => sizeF f
decreasing_by
  all_goals simp_wf
  all_goals simp [sizeF]
  all_goals omega

/-- Write trace of the `Visit_dictsetmaker` loop: visit each child; when a
child is a COLON, strongly connect the previous child (the key) and the
colon itself. -/
def dictsetEv (par : PyTree) (i : Nat) (prev : Option (Nat × PyTree)) :
    PyForest → List PEvent
  | .nil => []
  | .cons c rest =>
      shift i (visitEv (some par) c) ++
      (if nodeName c = "COLON" then
         (match prev with
          | some pr => shift pr.1 (RecAnnotateEv STRONGLY_CONNECTED pr.2)
          | none => []) ++
         shift i (RecAnnotateEv STRONGLY_CONNECTED c)
       else []) ++
      dictsetEv par (i + 1) (some (i, c)) rest
termination_by f => sizeF f
decreasing_by
  all_goals simp_wf
  all_goals simp [sizeF]
  all_goals omega

end

/-- `ComputeSplitPenalties(tree)`: run the visitor from the root (no
parent) and replay its writes. -/
def ComputeSplitPenalties (t : PyTree) : PyTree :=
  applyEvents t (visitEv none t)

/-! ## Basic navigation lemmas -/

theorem getAnn_setAnn (t : PyTree) (a : Option Nat) : getAnn (setAnn t a) = a := by
  cases t <;> rfl

theorem nodeAt_setAnn_cons (t : PyTree) (a : Option Nat) (i : Nat) (p : Path) :
    nodeAt (setAnn t a) (i :: p) = nodeAt t (i :: p) := by
  cases t <;> rfl

theorem nodeAtF_cons_zero (c : PyTree) (rest : PyForest) (p : Path) :
    nodeAtF (.cons c rest) 0 p = nodeAt c p := rfl

theorem nodeAtF_cons_succ (c : PyTree) (rest : PyForest) (i : Nat) (p : Path) :
    nodeAtF (.cons c rest) (i + 1) p = nodeAtF rest i p := rfl

mutual

theorem annAt_updateAnnAt (g : Option Nat → Option Nat) (q : Path) (t : PyTree)
    (p : Path) :
    annAt (updateAnnAt g t q) p = if p = q then (annAt t p).map g else annAt t p := by
  match q with
  | [] =>
    match p with
    | [] => simp [updateAnnAt, annAt, nodeAt, getAnn_setAnn]
    | i :: p =>
      simp [updateAnnAt, annAt, nodeAt_setAnn_cons]
  | j :: q =>
    match t with
    | .leaf ty va a =>
      match p with
      | [] => simp [updateAnnAt, annAt, nodeAt]
      | i :: p => simp [updateAnnAt, annAt, nodeAt]
    | .node ty a cs =>
      match p with
      | [] => simp [updateAnnAt, annAt, nodeAt, getAnn]
      | i :: p =>
        have h := annAtF_updateAnnAtF g q cs j i p
        simp only [updateAnnAt, annAt, nodeAt] at h ⊢
        rw [h]
        by_cases hij : i = j
        · by_cases hpq : p = q <;> simp [hij, hpq]
        · simp [hij]
termination_by (q.length, sizeT t)
decreasing_by
  all_goals simp_wf
  all_goals exact Prod.Lex.left _ _ (by omega)

theorem annAtF_updateAnnAtF (g : Option Nat → Option Nat) (q : Path) (f : PyForest)
    (j i : Nat) (p : Path) :
    (nodeAtF (updateAnnAtF g f j q) i p).map getAnn =
      if i = j ∧ p = q then ((nodeAtF f i p).map getAnn).map g
      else (nodeAtF f i p).map getAnn := by
  match f with
  | .nil =>
    simp only [updateAnnAtF, nodeAtF, Option.map_none]
    split <;> rfl
  | .cons c rest =>
    match j, i with
    | 0, 0 =>
      have h := annAt_updateAnnAt g q c p
      simp only [annAt] at h
      simp [updateAnnAtF, nodeAtF_cons_zero, h]
    | 0, i + 1 => simp [updateAnnAtF, nodeAtF_cons_succ]
    | j + 1, 0 => simp [updateAnnAtF, nodeAtF_cons_zero]
    | j + 1, i + 1 =>
      have h := annAtF_updateAnnAtF g q rest j i p
      simp [updateAnnAtF, nodeAtF_cons_succ, h]
termination_by (q.length, 1 + sizeF f)
decreasing_by
  all_goals simp_wf
  all_goals first
    | exact Prod.Lex.right _ (by simp [sizeF, sizeT]; try omega)
    | exact Prod.Lex.left _ _ (by omega)

end

theorem erase_setAnn (t : PyTree) (a : Option Nat) : erase (setAnn t a) = erase t := by
  cases t <;> rfl

mutual

theorem erase_updateAnnAt (g : Option Nat → Option Nat) (t : PyTree) (q : Path) :
    erase (updateAnnAt g t q) = erase t := by
  match q with
  | [] => simp [updateAnnAt, erase_setAnn]
  | j :: q =>
    match t with
    | .leaf ty va a => rfl
    | .node ty a cs => simp [updateAnnAt, erase, eraseF_updateAnnAtF g cs j q]
termination_by (q.length, sizeT t)
decreasing_by
  all_goals simp_wf
  all_goals exact Prod.Lex.left _ _ (by omega)

theorem eraseF_updateAnnAtF (g : Option Nat → Option Nat) (f : PyForest)
    (j : Nat) (q : Path) :
    eraseF (updateAnnAtF g f j q) = eraseF f := by
  match f with
  | .nil => rfl
  | .cons c rest =>
    match j with
    | 0 => simp [updateAnnAtF, eraseF, erase_updateAnnAt g c q]
    | j + 1 => simp [updateAnnAtF, eraseF, eraseF_updateAnnAtF g rest j q]
termination_by (q.length, 1 + sizeF f)
decreasing_by
  all_goals simp_wf
  all_goals first
    | exact Prod.Lex.right _ (by simp [sizeF, sizeT]; try omega)
    | exact Prod.Lex.left _ _ (by omega)

end

/-! ## Replay lemmas: what one event, and a list of events, does to one slot -/

/-- Effect of an event on the slot at path `p`. -/
def evalE (e : PEvent) (p : Path) (a : Option Nat) : Option Nat :=
  if e.target = p then
    match e with
    | .raiseTo _ v => omax a v
    | .clear _ => none
  else a

theorem evalE_raise_self (p : Path) (v : Nat) :
    evalE (.raiseTo p v) p = fun a => omax a v := by
  funext a; simp [evalE, PEvent.target]

theorem evalE_clear_self (p : Path) :
    evalE (.clear p) p = fun _ => none := by
  funext a; simp [evalE, PEvent.target]

theorem evalE_ne (e : PEvent) (p : Path) (h : e.target ≠ p) : evalE e p = id := by
  funext a; simp [evalE, h]

theorem annAt_applyEvent (t : PyTree) (e : PEvent) (p : Path) :
    annAt (applyEvent t e) p = (annAt t p).map (evalE e p) := by
  cases e with
  | raiseTo q v =>
    by_cases h : q = p
    · subst h
      rw [evalE_raise_self]
      simp [applyEvent, annAt_updateAnnAt]
    · rw [evalE_ne _ _ (by simpa [PEvent.target] using h)]
      simp [applyEvent, annAt_updateAnnAt, Ne.symm h]
  | clear q =>
    by_cases h : q = p
    · subst h
      rw [evalE_clear_self]
      simp [applyEvent, annAt_updateAnnAt]
    · rw [evalE_ne _ _ (by simpa [PEvent.target] using h)]
      simp [applyEvent, annAt_updateAnnAt, Ne.symm h]

theorem erase_applyEvent (t : PyTree) (e : PEvent) :
    erase (applyEvent t e) = erase t := by
  cases e <;> simp [applyEvent, erase_updateAnnAt]

theorem erase_applyEvents (t : PyTree) (es : List PEvent) :
    erase (applyEvents t es) = erase t := by
  induction es generalizing t with
  | nil => rfl
  | cons e es ih => simp [applyEvents] at ih ⊢; rw [ih, erase_applyEvent]

/-- Cumulative effect of an event list on one slot, in replay order. -/
def evalList (es : List PEvent) (p : Path) (a : Option Nat) : Option Nat :=
  match es with
  | [] => a
  | e :: es => evalList es p (evalE e p a)

theorem annAt_applyEvents (t : PyTree) (es : List PEvent) (p : Path) :
    annAt (applyEvents t es) p = (annAt t p).map (evalList es p) := by
  induction es generalizing t with
  | nil => simp [applyEvents, evalList]
  | cons e es ih =>
    have : applyEvents t (e :: es) = applyEvents (applyEvent t e) es := rfl
    rw [this, ih, annAt_applyEvent, Option.map_map]
    rfl

theorem evalList_append (es₁ es₂ : List PEvent) (p : Path) (a : Option Nat) :
    evalList (es₁ ++ es₂) p a = evalList es₂ p (evalList es₁ p a) := by
  induction es₁ generalizing a with
  | nil => rfl
  | cons e es ih => simp [evalList, ih]

/-- Merge with an optional raise value. -/
def omaxO : Option Nat → Option Nat → Option Nat
  | a, none => a
  | a, some v => omax a v

theorem omaxO_omax (a : Option Nat) (v : Nat) (m : Option Nat) :
    omaxO (omax a v) m = omaxO a (omaxO (some v) m) := by
  cases m <;> cases a <;> simp [omaxO, omax, Nat.max_assoc]

/-- The cumulative effect of any event list on one slot is either a
monotone merge or a constant function; both are idempotent. -/
theorem evalList_shape (es : List PEvent) (p : Path) :
    (∃ m, ∀ a, evalList es p a = omaxO a m) ∨ (∃ c, ∀ a, evalList es p a = c) := by
  induction es with
  | nil => exact Or.inl ⟨none, fun a => rfl⟩
  | cons e es ih =>
    by_cases h : e.target = p
    · cases e with
      | raiseTo q v =>
        rcases ih with ⟨m, hm⟩ | ⟨c, hc⟩
        · refine Or.inl ⟨omaxO (some v) m, fun a => ?_⟩
          simp [evalList, evalE, h, hm, omaxO_omax]
        · refine Or.inr ⟨c, fun a => ?_⟩
          simp [evalList, evalE, h, hc]
      | clear q =>
        rcases ih with ⟨m, hm⟩ | ⟨c, hc⟩
        · refine Or.inr ⟨omaxO none m, fun a => ?_⟩
          simp [evalList, evalE, h, hm]
        · refine Or.inr ⟨c, fun a => ?_⟩
          simp [evalList, evalE, h, hc]
    · rcases ih with ⟨m, hm⟩ | ⟨c, hc⟩
      · refine Or.inl ⟨m, fun a => ?_⟩
        simp [evalList, evalE, h, hm]
      · refine Or.inr ⟨c, fun a => ?_⟩
        simp [evalList, evalE, h, hc]

theorem omaxO_idem (a : Option Nat) (m : Option Nat) :
    omaxO (omaxO a m) m = omaxO a m := by
  cases m <;> cases a <;> simp [omaxO, omax, Nat.max_assoc]

theorem evalList_idem (es : List PEvent) (p : Path) (a : Option Nat) :
    evalList es p (evalList es p a) = evalList es p a := by
  rcases evalList_shape es p with ⟨m, hm⟩ | ⟨c, hc⟩
  · simp [hm, omaxO_idem]
  · simp [hc]

/-! ## Extensionality: a tree is determined by its erasure and its slots -/

mutual

theorem eqT_of_erase_annAt (t t' : PyTree) (he : erase t = erase t')
    (ha : ∀ p, annAt t p = annAt t' p) : t = t' := by
  match t, t' with
  | .leaf ty va a, .leaf ty' va' a' =>
    simp [erase] at he
    have h0 := ha []
    simp [annAt, nodeAt, getAnn] at h0
    simp [he.1, he.2, h0]
  | .leaf _ _ _, .node _ _ _ => simp [erase] at he
  | .node _ _ _, .leaf _ _ _ => simp [erase] at he
  | .node ty a cs, .node ty' a' cs' =>
    simp [erase] at he
    have h0 := ha []
    simp [annAt, nodeAt, getAnn] at h0
    have hf : cs = cs' := by
      apply eqF_of_erase_annAt cs cs' he.2
      intro i p
      have := ha (i :: p)
      simpa [annAt, nodeAt] using this
    simp [he.1, h0, hf]

theorem eqF_of_erase_annAt (f f' : PyForest) (he : eraseF f = eraseF f')
    (ha : ∀ i p, (nodeAtF f i p).map getAnn = (nodeAtF f' i p).map getAnn) :
    f = f' := by
  match f, f' with
  | .nil, .nil => rfl
  | .nil, .cons _ _ => simp [eraseF] at he
  | .cons _ _, .nil => simp [eraseF] at he
  | .cons c rest, .cons c' rest' =>
    simp [eraseF] at he
    have hc : c = c' := by
      apply eqT_of_erase_annAt c c' he.1
      intro p
      have := ha 0 p
      simpa [annAt, nodeAtF_cons_zero] using this
    have hr : rest = rest' := by
      apply eqF_of_erase_annAt rest rest' he.2
      intro i p
      have := ha (i + 1) p
      simpa [nodeAtF_cons_succ] using this
    simp [hc, hr]

end

/-! ## Structure is annotation-independent: erase commutation lemmas -/

theorem nodeName_erase (t : PyTree) : nodeName (erase t) = nodeName t := by
  cases t <;> rfl

theorem isLeaf_erase (t : PyTree) : (erase t).isLeaf = t.isLeaf := by
  cases t <;> rfl

theorem value_erase (t : PyTree) : value (erase t) = value t := by
  cases t <;> rfl

theorem children_erase (t : PyTree) : children (erase t) = eraseF (children t) := by
  cases t <;> rfl

theorem eraseF_length (f : PyForest) : (eraseF f).length = f.length := by
  match f with
  | .nil => rfl
  | .cons c rest => simp [eraseF, PyForest.length, eraseF_length rest]

theorem eraseF_get (f : PyForest) (i : Nat) : (eraseF f).get i = erase (f.get i) := by
  match f, i with
  | .nil, 0 => rfl
  | .nil, _ + 1 => rfl
  | .cons c rest, 0 => rfl
  | .cons c rest, n + 1 => simp [eraseF, PyForest.get, eraseF_get rest n]

theorem eraseF_drop (f : PyForest) (n : Nat) : (eraseF f).drop n = eraseF (f.drop n) := by
  match f, n with
  | .nil, 0 => rfl
  | .nil, _ + 1 => rfl
  | .cons c rest, 0 => rfl
  | .cons c rest, n + 1 => simp [eraseF, PyForest.drop, eraseF_drop rest n]

mutual

theorem nodeAt_erase (t : PyTree) (p : Path) :
    nodeAt (erase t) p = (nodeAt t p).map erase := by
  match t, p with
  | t, [] => cases t <;> rfl
  | .leaf _ _ _, _ :: _ => rfl
  | .node ty a cs, i :: p => simpa [erase, nodeAt] using nodeAtF_erase cs i p

theorem nodeAtF_erase (f : PyForest) (i : Nat) (p : Path) :
    nodeAtF (eraseF f) i p = (nodeAtF f i p).map erase := by
  match f, i with
  | .nil, _ => rfl
  | .cons c rest, 0 => simpa [eraseF, nodeAtF] using nodeAt_erase c p
  | .cons c rest, i + 1 => simpa [eraseF, nodeAtF] using nodeAtF_erase rest i p

end

theorem isLeafAt_congr_erase (t t' : PyTree) (p : Path) (h : erase t = erase t') :
    isLeafAt t p = isLeafAt t' p := by
  have h1 : (nodeAt t p).map erase = (nodeAt t' p).map erase := by
    rw [← nodeAt_erase, ← nodeAt_erase, h]
  cases ht : nodeAt t p with
  | none =>
    cases ht' : nodeAt t' p with
    | none => simp [isLeafAt, ht, ht']
    | some n' => rw [ht, ht'] at h1; simp at h1
  | some n =>
    cases ht' : nodeAt t' p with
    | none => rw [ht, ht'] at h1; simp at h1
    | some n' =>
      rw [ht, ht'] at h1
      simp at h1
      have : n.isLeaf = n'.isLeaf := by
        rw [← isLeaf_erase n, ← isLeaf_erase n', h1]
      simp [isLeafAt, ht, ht', this]

theorem nodeAt_isSome_congr_erase (t t' : PyTree) (p : Path) (h : erase t = erase t') :
    (nodeAt t p).isSome = (nodeAt t' p).isSome := by
  have h1 : (nodeAt t p).map erase = (nodeAt t' p).map erase := by
    rw [← nodeAt_erase, ← nodeAt_erase, h]
  cases ht : nodeAt t p <;> cases ht' : nodeAt t' p <;> rw [ht, ht'] at h1 <;>
    simp at h1 <;> rfl

theorem isLeafAt_applyEvents (t : PyTree) (es : List PEvent) (p : Path) :
    isLeafAt (applyEvents t es) p = isLeafAt t p :=
  isLeafAt_congr_erase _ _ _ (erase_applyEvents t es)

/-! ## Per-slot characterization of the helper traces -/

theorem evalList_shift_nil (es : List PEvent) (i : Nat) (a : Option Nat) :
    evalList (shift i es) [] a = a := by
  induction es generalizing a with
  | nil => rfl
  | cons e es ih =>
    have : evalE (shiftE i e) [] a = a := by
      cases e <;> simp [evalE, shiftE, PEvent.target]
    simp [shift, evalList, this] at ih ⊢
    exact ih a

theorem evalE_shiftE_cons (e : PEvent) (i j : Nat) (p : Path) (a : Option Nat) :
    evalE (shiftE i e) (j :: p) a = if j = i then evalE e p a else a := by
  by_cases hj : j = i
  · subst hj
    cases e with
    | raiseTo q v =>
      by_cases hq : q = p
      · subst hq; simp [shiftE, evalE, PEvent.target]
      · simp [shiftE, evalE, PEvent.target, hq]
    | clear q =>
      by_cases hq : q = p
      · subst hq; simp [shiftE, evalE, PEvent.target]
      · simp [shiftE, evalE, PEvent.target, hq]
  · have hne : ∀ q : Path, (i :: q : Path) ≠ j :: p := by
      intro q hcon
      exact hj (by injection hcon with h1 _; exact h1.symm)
    cases e with
    | raiseTo q v => simp [shiftE, evalE, PEvent.target, hne q, hj]
    | clear q => simp [shiftE, evalE, PEvent.target, hne q, hj]

theorem evalList_shift_cons (es : List PEvent) (i j : Nat) (p : Path) (a : Option Nat) :
    evalList (shift i es) (j :: p) a =
      if j = i then evalList es p a else a := by
  induction es generalizing a with
  | nil => simp [shift, evalList]
  | cons e es ih =>
    simp only [shift, List.map_cons, evalList] at ih ⊢
    rw [evalE_shiftE_cons]
    by_cases h : j = i
    · subst h
      simp [ih]
    · simp [h, ih]

theorem evalList_of_no_target (es : List PEvent) (p : Path) (a : Option Nat)
    (h : ∀ e ∈ es, e.target ≠ p) : evalList es p a = a := by
  induction es generalizing a with
  | nil => rfl
  | cons e es ih =>
    have he : evalE e p a = a := by
      have := h e (by simp)
      simp [evalE, this]
    rw [evalList, he]
    exact ih a (fun e hm => h e (by simp [hm]))

theorem annAt_applyEvents_no_target (t : PyTree) (es : List PEvent) (p : Path)
    (h : ∀ e ∈ es, e.target ≠ p) : annAt (applyEvents t es) p = annAt t p := by
  rw [annAt_applyEvents]
  cases ha : annAt t p with
  | none => rfl
  | some a => simp [evalList_of_no_target es p a h]

theorem nodeAtF_eq_get (f : PyForest) (j : Nat) (p : Path) :
    nodeAtF f j p = if j < f.length then nodeAt (f.get j) p else none := by
  match f, j with
  | .nil, j => simp [nodeAtF, PyForest.length]
  | .cons c rest, 0 =>
    have : (0 : Nat) < (PyForest.cons c rest).length := by
      simp [PyForest.length]
    simp [nodeAtF, PyForest.get, this]
  | .cons c rest, n + 1 =>
    rw [nodeAtF_cons_succ, nodeAtF_eq_get rest n p]
    have : n < rest.length ↔ n + 1 < (PyForest.cons c rest).length := by
      simp [PyForest.length]; omega
    by_cases h : n < rest.length
    · simp [PyForest.get, h, this.mp h]
    · have h2 : ¬ (n + 1 < (PyForest.cons c rest).length) := fun hcon => h (this.mpr hcon)
      simp [PyForest.get, h, h2]

theorem isLeafAt_node_cons (ty : String) (an : Option Nat) (cs : PyForest)
    (j : Nat) (p : Path) :
    isLeafAt (.node ty an cs) (j :: p) =
      if j < cs.length then isLeafAt (cs.get j) p else false := by
  simp only [isLeafAt, nodeAt, nodeAtF_eq_get]
  by_cases h : j < cs.length <;> simp [h]

theorem evalListF_RecAnnotateEvF_nil (v : Nat) (f : PyForest) (i : Nat)
    (a : Option Nat) :
    evalList (RecAnnotateEvF v i f) [] a = a := by
  match f with
  | .nil => rfl
  | .cons c rest =>
    rw [RecAnnotateEvF, evalList_append, evalList_shift_nil]
    exact evalListF_RecAnnotateEvF_nil v rest (i + 1) a

mutual

theorem evalList_RecAnnotateEv (v : Nat) (t : PyTree) (p : Path) (a : Option Nat) :
    evalList (RecAnnotateEv v t) p a =
      if isLeafAt t p then omax a v else a := by
  match t with
  | .leaf ty va an =>
    match p with
    | [] => simp [RecAnnotateEv, evalList, evalE, PEvent.target, isLeafAt, nodeAt,
        PyTree.isLeaf]
    | i :: p => simp [RecAnnotateEv, evalList, evalE, PEvent.target, isLeafAt, nodeAt]
  | .node ty an cs =>
    match p with
    | [] =>
      rw [RecAnnotateEv, evalListF_RecAnnotateEvF_nil]
      simp [isLeafAt, nodeAt, PyTree.isLeaf]
    | j :: p =>
      rw [RecAnnotateEv, evalListF_RecAnnotateEvF_cons v cs 0 j p a,
        isLeafAt_node_cons]
      simp only [Nat.zero_le, true_and, Nat.sub_zero]
      by_cases h : j < cs.length
      · simp [h]
      · simp [h]

theorem evalListF_RecAnnotateEvF_cons (v : Nat) (f : PyForest) (i j : Nat) (p : Path)
    (a : Option Nat) :
    evalList (RecAnnotateEvF v i f) (j :: p) a =
      if i ≤ j ∧ j - i < f.length ∧ isLeafAt (f.get (j - i)) p then omax a v
      else a := by
  match f with
  | .nil => simp [RecAnnotateEvF, evalList, PyForest.length]
  | .cons c rest =>
    rw [RecAnnotateEvF, evalList_append, evalList_shift_cons]
    by_cases hj : j = i
    · subst hj
      rw [if_pos rfl, evalList_RecAnnotateEv v c p a,
        evalListF_RecAnnotateEvF_cons v rest (j + 1) j p _]
      rw [if_neg (by omega)]
      have hget : (PyForest.cons c rest).get (j - j) = c := by
        simp [Nat.sub_self, PyForest.get]
      have hlen : j - j < (PyForest.cons c rest).length := by
        simp [Nat.sub_self, PyForest.length]
      by_cases hl : isLeafAt c p
      · rw [if_pos hl, if_pos ⟨Nat.le_refl j, hlen, by rw [hget]; exact hl⟩]
      · rw [if_neg (by simp [hl]), if_neg (by rw [hget]; simp [hl])]
    · rw [if_neg hj, evalListF_RecAnnotateEvF_cons v rest (i + 1) j p a]
      by_cases hle : i + 1 ≤ j
      · have h1 : i ≤ j := by omega
        have h2 : j - i = (j - (i + 1)) + 1 := by omega
        have hget : (PyForest.cons c rest).get (j - i) = rest.get (j - (i + 1)) := by
          rw [h2]; rfl
        have h3 : j - (i + 1) < rest.length ↔ j - i < (PyForest.cons c rest).length := by
          simp [PyForest.length]; omega
        rw [hget]
        refine if_congr ?_ rfl rfl
        constructor
        · rintro ⟨h, hlen, hl⟩
          exact ⟨h1, h3.mp hlen, hl⟩
        · rintro ⟨h, hlen, hl⟩
          exact ⟨hle, h3.mpr hlen, hl⟩
      · have h1 : ¬ i ≤ j := by omega
        rw [if_neg (fun h => hle h.1), if_neg (fun h => h1 h.1)]

end

/-! ## Characterization of the direct helpers -/

theorem getAnn_RecAnnotate (v : Nat) (n : PyTree) :
    getAnn (RecAnnotate v n) =
      if n.isLeaf then omax (getAnn n) v else getAnn n := by
  cases n <;> simp [RecAnnotate, getAnn, PyTree.isLeaf]

mutual

theorem nodeAt_RecAnnotate (v : Nat) (t : PyTree) (p : Path) :
    nodeAt (RecAnnotate v t) p = (nodeAt t p).map (RecAnnotate v) := by
  match t, p with
  | .leaf ty va a, [] => rfl
  | .leaf ty va a, _ :: _ => rfl
  | .node ty a cs, [] => rfl
  | .node ty a cs, i :: p =>
    simpa [RecAnnotate, nodeAt] using nodeAtF_RecAnnotateF v cs i p

theorem nodeAtF_RecAnnotateF (v : Nat) (f : PyForest) (i : Nat) (p : Path) :
    nodeAtF (RecAnnotateF v f) i p = (nodeAtF f i p).map (RecAnnotate v) := by
  match f, i with
  | .nil, _ => rfl
  | .cons c rest, 0 => simpa [RecAnnotateF, nodeAtF] using nodeAt_RecAnnotate v c p
  | .cons c rest, i + 1 =>
    simpa [RecAnnotateF, nodeAtF] using nodeAtF_RecAnnotateF v rest i p

end

theorem annAt_RecAnnotate (v : Nat) (t : PyTree) (p : Path) :
    annAt (RecAnnotate v t) p =
      (nodeAt t p).map (fun n => if n.isLeaf then omax (getAnn n) v else getAnn n) := by
  rw [annAt, nodeAt_RecAnnotate, Option.map_map]
  cases nodeAt t p with
  | none => rfl
  | some n => simp [getAnn_RecAnnotate]

mutual

theorem erase_RecAnnotate (v : Nat) (t : PyTree) : erase (RecAnnotate v t) = erase t := by
  match t with
  | .leaf ty va a => rfl
  | .node ty a cs => simpa [RecAnnotate, erase] using eraseF_RecAnnotateF v cs

theorem eraseF_RecAnnotateF (v : Nat) (f : PyForest) :
    eraseF (RecAnnotateF v f) = eraseF f := by
  match f with
  | .nil => rfl
  | .cons c rest =>
    simp [RecAnnotateF, eraseF, erase_RecAnnotate v c, eraseF_RecAnnotateF v rest]

end

/-- Faithfulness of the write-trace encoding of `_RecAnnotate`: replaying
its trace is exactly the direct recursive function. -/
theorem RecAnnotate_replay (v : Nat) (t : PyTree) :
    applyEvents t (RecAnnotateEv v t) = RecAnnotate v t := by
  apply eqT_of_erase_annAt
  · rw [erase_applyEvents, erase_RecAnnotate]
  · intro p
    rw [annAt_applyEvents, annAt_RecAnnotate]
    cases hn : nodeAt t p with
    | none => simp [annAt, hn]
    | some n =>
      have hl : isLeafAt t p = n.isLeaf := by simp [isLeafAt, hn]
      simp [annAt, hn, evalList_RecAnnotateEv, hl]

/-- The path of the leftmost leaf of the first element of a forest. -/
def leftmostLeafPathF : PyForest → Option Path
  | .nil => none
  | .cons c _ => leftmostLeafPath c

theorem leftmostLeafPath_node (ty : String) (a : Option Nat) (cs : PyForest) :
    leftmostLeafPath (.node ty a cs) = (leftmostLeafPathF cs).map (fun p => 0 :: p) := by
  cases cs <;> simp [leftmostLeafPath, leftmostLeafPathF]

mutual

theorem annAt_RecArith (skip : Bool) (t : PyTree) (p : Path) :
    annAt (RecArithmeticExpression skip t) p =
      if skip = true ∧ some p = leftmostLeafPath t then annAt t p
      else (nodeAt t p).map
        (fun n => if n.isLeaf then omax (getAnn n) ARITHMETIC_EXPRESSION else getAnn n) := by
  match t, p with
  | .leaf ty va a, [] =>
    cases skip <;>
      simp [RecArithmeticExpression, leftmostLeafPath, annAt, nodeAt, getAnn,
        PyTree.isLeaf]
  | .leaf ty va a, i :: p =>
    cases skip <;> simp [RecArithmeticExpression, leftmostLeafPath, annAt, nodeAt]
  | .node ty a cs, [] =>
    have : ¬ (skip = true ∧ (some [] : Option Path) = leftmostLeafPath (.node ty a cs)) := by
      rintro ⟨_, h⟩
      rw [leftmostLeafPath_node] at h
      cases hf : leftmostLeafPathF cs <;> rw [hf] at h <;> simp at h
    simp only [this, if_neg]
    simp [RecArithmeticExpression, annAt, nodeAt, getAnn, PyTree.isLeaf]
  | .node ty a cs, j :: p =>
    have hF := annAtF_RecArithF skip cs j p
    simp only [annAt, nodeAt, RecArithmeticExpression] at hF ⊢
    rw [hF, leftmostLeafPath_node]
    have hiff : (skip = true ∧ j = 0 ∧ some p = leftmostLeafPathF cs) ↔
        (skip = true ∧ some (j :: p) = (leftmostLeafPathF cs).map (fun p => 0 :: p)) := by
      constructor
      · rintro ⟨hs, hj, hp⟩
        subst hj
        refine ⟨hs, ?_⟩
        cases hf : leftmostLeafPathF cs <;> rw [hf] at hp <;> simp_all
      · rintro ⟨hs, hp⟩
        cases hf : leftmostLeafPathF cs <;> rw [hf] at hp <;> simp at hp
        exact ⟨hs, hp.1, by simp [hp.2]⟩
    rw [if_congr hiff rfl rfl]

theorem annAtF_RecArithF (skip : Bool) (f : PyForest) (j : Nat) (p : Path) :
    (nodeAtF (RecArithmeticExpressionF skip f) j p).map getAnn =
      if skip = true ∧ j = 0 ∧ some p = leftmostLeafPathF f then
        (nodeAtF f j p).map getAnn
      else (nodeAtF f j p).map
        (fun n => if n.isLeaf then omax (getAnn n) ARITHMETIC_EXPRESSION else getAnn n) := by
  match f, j with
  | .nil, j => simp [RecArithmeticExpressionF, nodeAtF, leftmostLeafPathF]
  | .cons c rest, 0 =>
    have hT := annAt_RecArith skip c p
    simp only [annAt] at hT
    simp only [RecArithmeticExpressionF, nodeAtF_cons_zero, leftmostLeafPathF]
    rw [hT]
    by_cases h : skip = true ∧ some p = leftmostLeafPath c
    · rw [if_pos h, if_pos ⟨h.1, by trivial, h.2⟩]
    · rw [if_neg h, if_neg (by rintro ⟨h1, _, h3⟩; exact h ⟨h1, h3⟩)]
  | .cons c rest, j + 1 =>
    have hF := annAtF_RecArithF false rest j p
    simp only [RecArithmeticExpressionF, nodeAtF_cons_succ]
    rw [hF]
    simp

end

mutual

theorem erase_RecArith (skip : Bool) (t : PyTree) :
    erase (RecArithmeticExpression skip t) = erase t := by
  match t with
  | .leaf ty va a => cases skip <;> simp [RecArithmeticExpression, erase]
  | .node ty a cs =>
    simpa [RecArithmeticExpression, erase] using eraseF_RecArithF skip cs

theorem eraseF_RecArithF (skip : Bool) (f : PyForest) :
    eraseF (RecArithmeticExpressionF skip f) = eraseF f := by
  match f with
  | .nil => rfl
  | .cons c rest =>
    simp [RecArithmeticExpressionF, eraseF, erase_RecArith skip c,
      eraseF_RecArithF false rest]

end

/-! ## Characterization of the absent-comparison instrumentation -/

mutual

theorem comparesAbsent_of_leaf (skip : Bool) (t : PyTree) (p : Path)
    (hleaf : isLeafAt t p = true) (habs : annAt t p = some none)
    (hns : ¬ (skip = true ∧ some p = leftmostLeafPath t)) :
    RecArithComparesAbsent skip t = true := by
  match t, p with
  | .leaf ty va a, [] =>
    have ha : a = none := by simpa [annAt, nodeAt, getAnn] using habs
    have hs : skip = false := by
      cases skip with
      | false => rfl
      | true => exact absurd ⟨rfl, by simp [leftmostLeafPath]⟩ hns
    simp [RecArithComparesAbsent, hs, ha]
  | .leaf ty va a, i :: p => simp [isLeafAt, nodeAt] at hleaf
  | .node ty a cs, [] => simp [isLeafAt, nodeAt, PyTree.isLeaf] at hleaf
  | .node ty a cs, j :: p =>
    rw [RecArithComparesAbsent]
    have hstep : isLeafAt (.node ty a cs) (j :: p) =
        if j < cs.length then isLeafAt (cs.get j) p else false :=
      isLeafAt_node_cons ty a cs j p
    rw [hstep] at hleaf
    by_cases hj : j < cs.length
    · rw [if_pos hj] at hleaf
      have habs' : annAt (cs.get j) p = some none := by
        simp only [annAt, nodeAt, nodeAtF_eq_get, hj, if_pos] at habs
        exact habs
      apply comparesAbsentF_of_leaf skip cs j p hj hleaf habs'
      rintro ⟨hs, hj0, hp⟩
      apply hns
      subst hj0
      refine ⟨hs, ?_⟩
      rw [leftmostLeafPath_node]
      cases hf : leftmostLeafPathF cs with
      | none =>
        exfalso
        cases cs with
        | nil => simp [PyForest.length] at hj
        | cons c rest => simp [leftmostLeafPathF] at hf; simp_all [PyForest.get]
      | some q =>
        cases cs with
        | nil => simp [PyForest.length] at hj
        | cons c rest =>
          simp [leftmostLeafPathF] at hf
          simp [PyForest.get] at hp
          simp [hf] at hp ⊢
          simp [hp]
    · rw [if_neg hj] at hleaf
      exact absurd hleaf (by simp)

theorem comparesAbsentF_of_leaf (skip : Bool) (f : PyForest) (j : Nat) (p : Path)
    (hj : j < f.length) (hleaf : isLeafAt (f.get j) p = true)
    (habs : annAt (f.get j) p = some none)
    (hns : ¬ (skip = true ∧ j = 0 ∧ some p = leftmostLeafPath (f.get 0))) :
    RecArithComparesAbsentF skip f = true := by
  match f, j with
  | .nil, j => simp [PyForest.length] at hj
  | .cons c rest, 0 =>
    have : RecArithComparesAbsent skip c = true := by
      apply comparesAbsent_of_leaf skip c p hleaf habs
      rintro ⟨hs, hp⟩
      exact hns ⟨hs, rfl, by simpa [PyForest.get] using hp⟩
    simp [RecArithComparesAbsentF, this]
  | .cons c rest, j + 1 =>
    have hj' : j < rest.length := by simp [PyForest.length] at hj; omega
    have : RecArithComparesAbsentF false rest = true := by
      apply comparesAbsentF_of_leaf false rest j p hj' hleaf habs
      simp
    simp [RecArithComparesAbsentF, this]

end

mutual

theorem recAnnotateComparesAbsent_false (v : Nat) (t : PyTree) :
    RecAnnotateComparesAbsent v t = false := by
  match t with
  | .leaf ty va a => cases a <;> rfl
  | .node ty a cs =>
    simpa [RecAnnotateComparesAbsent] using recAnnotateComparesAbsentF_false v cs

theorem recAnnotateComparesAbsentF_false (v : Nat) (f : PyForest) :
    RecAnnotateComparesAbsentF v f = false := by
  match f with
  | .nil => rfl
  | .cons c rest =>
    simp [RecAnnotateComparesAbsentF, recAnnotateComparesAbsent_false v c,
      recAnnotateComparesAbsentF_false v rest]

end

/-! ## Lemmas about calls on an inner node (`updateAt`) -/

mutual

theorem updateAt_invalid (f : PyTree → PyTree) (T : PyTree) (q : Path)
    (h : nodeAt T q = none) : updateAt f T q = T := by
  match T, q with
  | T, [] => simp [nodeAt] at h
  | .leaf ty va a, _ :: _ => rfl
  | .node ty a cs, j :: q =>
    simp only [nodeAt] at h
    simp [updateAt, updateAtF_invalid f cs j q h]

theorem updateAtF_invalid (f : PyTree → PyTree) (cs : PyForest) (j : Nat) (q : Path)
    (h : nodeAtF cs j q = none) : updateAtF f cs j q = cs := by
  match cs, j with
  | .nil, _ => rfl
  | .cons c rest, 0 =>
    simp only [nodeAtF] at h
    simp [updateAtF, updateAt_invalid f c q h]
  | .cons c rest, j + 1 =>
    simp only [nodeAtF] at h
    simp [updateAtF, updateAtF_invalid f rest j q h]

end

mutual

theorem nodeAt_updateAt_append (f : PyTree → PyTree) (T : PyTree) (q : Path)
    (n : PyTree) (h : nodeAt T q = some n) (r : Path) :
    nodeAt (updateAt f T q) (q ++ r) = nodeAt (f n) r := by
  match T, q with
  | T, [] =>
    simp only [nodeAt] at h
    cases h
    cases n <;> rfl
  | .leaf ty va a, _ :: _ => simp [nodeAt] at h
  | .node ty a cs, j :: q =>
    simp only [nodeAt] at h
    simpa [updateAt, nodeAt] using nodeAtF_updateAtF_append f cs j q n h r

theorem nodeAtF_updateAtF_append (f : PyTree → PyTree) (cs : PyForest) (j : Nat)
    (q : Path) (n : PyTree) (h : nodeAtF cs j q = some n) (r : Path) :
    nodeAtF (updateAtF f cs j q) j (q ++ r) = nodeAt (f n) r := by
  match cs, j with
  | .nil, _ => simp [nodeAtF] at h
  | .cons c rest, 0 =>
    simp only [nodeAtF] at h
    simpa [updateAtF, nodeAtF] using nodeAt_updateAt_append f c q n h r
  | .cons c rest, j + 1 =>
    simp only [nodeAtF] at h
    simpa [updateAtF, nodeAtF] using nodeAtF_updateAtF_append f rest j q n h r

end

mutual

theorem annAt_updateAt_outside (f : PyTree → PyTree) (T : PyTree) (q p : Path)
    (h : ∀ r, p ≠ q ++ r) : annAt (updateAt f T q) p = annAt T p := by
  match T, q with
  | T, [] => exact absurd rfl (h p)
  | .leaf ty va a, _ :: _ => rfl
  | .node ty a cs, j :: q =>
    match p with
    | [] => simp [updateAt, annAt, nodeAt, getAnn]
    | i :: p =>
      simp only [updateAt, annAt, nodeAt]
      by_cases hij : i = j
      · subst hij
        have h' : ∀ r, p ≠ q ++ r := by
          intro r hr
          exact h r (by simp [hr])
        exact annAtF_updateAtF_outside f cs i q p h'
      · exact annAtF_updateAtF_ne f cs j q i p hij

theorem annAtF_updateAtF_outside (f : PyTree → PyTree) (cs : PyForest) (j : Nat)
    (q p : Path) (h : ∀ r, p ≠ q ++ r) :
    (nodeAtF (updateAtF f cs j q) j p).map getAnn = (nodeAtF cs j p).map getAnn := by
  match cs, j with
  | .nil, _ => rfl
  | .cons c rest, 0 =>
    have := annAt_updateAt_outside f c q p h
    simpa [updateAtF, nodeAtF, annAt] using this
  | .cons c rest, j + 1 =>
    simpa [updateAtF, nodeAtF] using annAtF_updateAtF_outside f rest j q p h

theorem annAtF_updateAtF_ne (f : PyTree → PyTree) (cs : PyForest) (j : Nat)
    (q : Path) (i : Nat) (p : Path) (hij : i ≠ j) :
    (nodeAtF (updateAtF f cs j q) i p).map getAnn = (nodeAtF cs i p).map getAnn := by
  match cs, j, i with
  | .nil, _, _ => rfl
  | .cons c rest, 0, 0 => exact absurd rfl hij
  | .cons c rest, 0, i + 1 => simp [updateAtF, nodeAtF]
  | .cons c rest, j + 1, 0 => simp [updateAtF, nodeAtF]
  | .cons c rest, j + 1, i + 1 =>
    simpa [updateAtF, nodeAtF] using
      annAtF_updateAtF_ne f rest j q i p (by omega)

end

mutual

theorem nodeAt_append (T : PyTree) (q r : Path) :
    nodeAt T (q ++ r) = (nodeAt T q).bind (fun m => nodeAt m r) := by
  match T, q with
  | T, [] => simp [nodeAt]
  | .leaf ty va a, _ :: _ => simp [nodeAt]
  | .node ty a cs, j :: q =>
    simpa [nodeAt] using nodeAtF_append cs j q r

theorem nodeAtF_append (cs : PyForest) (j : Nat) (q r : Path) :
    nodeAtF cs j (q ++ r) = (nodeAtF cs j q).bind (fun m => nodeAt m r) := by
  match cs, j with
  | .nil, _ => simp [nodeAtF]
  | .cons c rest, 0 => simpa [nodeAtF] using nodeAt_append c q r
  | .cons c rest, j + 1 => simpa [nodeAtF] using nodeAtF_append rest j q r

end

/-! ## Concrete example trees used in witnesses and counterexamples -/

/-- Build a forest from a list (only a convenience for examples). -/
def ofList : List PyTree → PyForest
  | [] => .nil
  | c :: rest => .cons c (ofList rest)

/-- `x + y` with `x` already annotated 50 and `y` already annotated 100:
an `arith_expr` node as parsed from such source. -/
def exArith : PyTree :=
  .node "arith_expr" none (ofList
    [.leaf "NAME" "x" (some 50), .leaf "PLUS" "+" none, .leaf "NAME" "y" (some 100)])

/-- A bare, unannotated `x + y` `arith_expr` node. -/
def exArithBare : PyTree :=
  .node "arith_expr" none (ofList
    [.leaf "NAME" "x" none, .leaf "PLUS" "+" none, .leaf "NAME" "y" none])

/-- A two-leaf tree used to exercise `_RecAnnotate` on an inner node. -/
def exPair : PyTree :=
  .node "x" none (ofList [.leaf "NAME" "a" (some 5), .leaf "NAME" "b" none])

/-! ## Claim C1 -/

/-- C1: a call of the Penalty Propagation primitive (`_RecAnnotate` with the
`SPLIT_PENALTY` annotation, value `v`) on the node at path `q` of tree `T`
(1) sets every leaf of that subtree to the maximum of its previous value
and `v` (an absent previous value behaving as minus infinity, so an
unannotated leaf ends with exactly `v`), (2) changes no slot outside the
subtree, and (3) never writes to an Interior node (every non-leaf slot is
unchanged). -/
theorem RecAnnotate_raises_leaves_only (T : PyTree) (q : Path) (v : Nat)
    (n : PyTree) (hq : nodeAt T q = some n) :
    (∀ r a, annAt T (q ++ r) = some a → isLeafAt T (q ++ r) = true →
        annAt (updateAt (RecAnnotate v) T q) (q ++ r) = some (omax a v))
    ∧ (∀ p, (∀ r, p ≠ q ++ r) →
        annAt (updateAt (RecAnnotate v) T q) p = annAt T p)
    ∧ (∀ p, isLeafAt T p = false →
        annAt (updateAt (RecAnnotate v) T q) p = annAt T p) := by
  have hsub : ∀ r, annAt (updateAt (RecAnnotate v) T q) (q ++ r) =
      annAt (RecAnnotate v n) r := by
    intro r
    rw [annAt, nodeAt_updateAt_append (RecAnnotate v) T q n hq r, ← annAt]
  have hTn : ∀ r, nodeAt T (q ++ r) = nodeAt n r := by
    intro r
    rw [nodeAt_append, hq]
    rfl
  refine ⟨?_, ?_, ?_⟩
  · intro r a ha hl
    rw [hsub r, annAt_RecAnnotate]
    have hnn := hTn r
    rw [annAt, hnn] at ha
    simp only [isLeafAt, hnn] at hl
    cases hm : nodeAt n r with
    | none => rw [hm] at ha; simp at ha
    | some m =>
      rw [hm] at ha hl
      simp at ha hl
      simp [hm, hl, ha]
  · intro p hp
    exact annAt_updateAt_outside (RecAnnotate v) T q p hp
  · intro p hleaf
    by_cases hdec : ∃ r, p = q ++ r
    · obtain ⟨r, rfl⟩ := hdec
      rw [hsub r, annAt_RecAnnotate]
      have hnn := hTn r
      simp only [isLeafAt, hnn] at hleaf
      rw [annAt, hnn]
      cases hm : nodeAt n r with
      | none => simp [hm]
      | some m =>
        rw [hm] at hleaf
        simp at hleaf
        simp [hm, hleaf]
    · push_neg at hdec
      exact annAt_updateAt_outside (RecAnnotate v) T q p hdec

/-- Witness for C1 at a concrete input: raising the subtree at path `[0]`
of `exPair` to 7 turns the annotated-5 leaf into 7 and leaves the sibling
leaf untouched. -/
theorem RecAnnotate_raises_leaves_only_witness :
    annAt (updateAt (RecAnnotate 7) exPair [0]) [0] = some (some 7)
    ∧ annAt (updateAt (RecAnnotate 7) exPair [0]) [1] = annAt exPair [1] := by
  have H := RecAnnotate_raises_leaves_only exPair [0] 7
    (.leaf "NAME" "a" (some 5)) rfl
  refine ⟨?_, H.2.1 [1] ?_⟩
  · have h1 := H.1 [] (some 5) rfl rfl
    simpa using h1
  · intro r h
    simp at h

/-! ## Claim C4 -/

/-- C4: on a `comparison`, `arith_expr` or `term` node (with the first
child leaf defined, as the source requires), the Arithmetic-Chain Rule
`_SetArithmeticExpression` (1) merges `ARITHMETIC_EXPRESSION` into every
leaf other than the first leaf, so (2) each such leaf ends at least 42,
(3) any slot already at 42 or more keeps exactly its value, and (4) the
first leaf's slot is untouched. -/
theorem SetArithmeticExpression_spec (t : PyTree)
    (hname : nodeName t = "comparison" ∨ nodeName t = "arith_expr" ∨ nodeName t = "term")
    (hfirst : (leftmostLeafPath t).isSome = true) :
    (∀ p a, annAt t p = some a → isLeafAt t p = true → some p ≠ leftmostLeafPath t →
        annAt (SetArithmeticExpression t) p = some (omax a ARITHMETIC_EXPRESSION))
    ∧ (∀ p a, annAt t p = some a → isLeafAt t p = true → some p ≠ leftmostLeafPath t →
        ∃ b, annAt (SetArithmeticExpression t) p = some (some b) ∧
          ARITHMETIC_EXPRESSION ≤ b)
    ∧ (∀ p a, annAt t p = some (some a) → ARITHMETIC_EXPRESSION ≤ a →
        annAt (SetArithmeticExpression t) p = some (some a))
    ∧ (∀ p, some p = leftmostLeafPath t →
        annAt (SetArithmeticExpression t) p = annAt t p) := by
  have key : ∀ p, annAt (SetArithmeticExpression t) p =
      if some p = leftmostLeafPath t then annAt t p
      else (nodeAt t p).map
        (fun n => if n.isLeaf then omax (getAnn n) ARITHMETIC_EXPRESSION else getAnn n) := by
    intro p
    rw [SetArithmeticExpression, annAt_RecArith]
    by_cases h : some p = leftmostLeafPath t
    · rw [if_pos ⟨rfl, h⟩, if_pos h]
    · rw [if_neg (by rintro ⟨_, hh⟩; exact h hh), if_neg h]
  have hone : ∀ p a, annAt t p = some a → isLeafAt t p = true →
      some p ≠ leftmostLeafPath t →
      annAt (SetArithmeticExpression t) p = some (omax a ARITHMETIC_EXPRESSION) := by
    intro p a ha hl hne
    rw [key p, if_neg hne]
    cases hm : nodeAt t p with
    | none => simp [annAt, hm] at ha
    | some m =>
      have hml : m.isLeaf = true := by simpa [isLeafAt, hm] using hl
      have hma : getAnn m = a := by rw [annAt, hm] at ha; simpa using ha
      simp [hml, hma]
  refine ⟨hone, ?_, ?_, ?_⟩
  · intro p a ha hl hne
    rw [hone p a ha hl hne]
    cases a with
    | none => exact ⟨ARITHMETIC_EXPRESSION, rfl, Nat.le_refl _⟩
    | some x => exact ⟨max x ARITHMETIC_EXPRESSION, rfl, Nat.le_max_right _ _⟩
  · intro p a ha hge
    rw [key p]
    by_cases h : some p = leftmostLeafPath t
    · rw [if_pos h]; exact ha
    · rw [if_neg h]
      cases hm : nodeAt t p with
      | none => simp [annAt, hm] at ha
      | some m =>
        have hma : getAnn m = some a := by rw [annAt, hm] at ha; simpa using ha
        cases hml : m.isLeaf
        · simp [hml, hma]
        · simp [hml, hma, omax, Nat.max_eq_left hge]
  · intro p hp
    rw [key p, if_pos hp]

/-- Witness for C4 on `x + y` with `x` at 50 and `y` at 100: the operator
leaf rises from absent to exactly 42, the 100-valued leaf keeps 100, and
the first leaf keeps 50 untouched. -/
theorem SetArithmeticExpression_spec_witness :
    annAt (SetArithmeticExpression exArith) [1] = some (some 42)
    ∧ annAt (SetArithmeticExpression exArith) [2] = some (some 100)
    ∧ annAt (SetArithmeticExpression exArith) [0] = annAt exArith [0] := by
  have H := SetArithmeticExpression_spec exArith (Or.inr (Or.inl rfl)) (by decide)
  refine ⟨?_, ?_, ?_⟩
  · have h := H.1 [1] none rfl rfl (by decide)
    simpa [ARITHMETIC_EXPRESSION] using h
  · exact H.2.2.1 [2] 100 rfl (by decide)
  · exact H.2.2.2 [0] (by decide)

/-! ## Claim C10 -/

/-- C10: the Arithmetic-Chain Rule reads annotation slots with an
unguarded `<` comparison.  (1) Whenever a `comparison`/`arith_expr`/`term`
subtree contains a non-first leaf with no prior `SPLIT_PENALTY`
annotation, `RecArithmeticExpression` evaluates
`GetNodeAnnotation(node, SPLIT_PENALTY) < ARITHMETIC_EXPRESSION` with the
absent value `None` on the left; (2) the bare `x + y` tree is such an
input; (3) `_RecAnnotate` never does, since its guard
`cur_annotate is None or cur_annotate < v` short-circuits. -/
theorem recArith_absent_comparison :
    (∀ t : PyTree,
        (∃ p, isLeafAt t p = true ∧ some p ≠ leftmostLeafPath t ∧
          annAt t p = some none) →
        RecArithComparesAbsent true t = true)
    ∧ RecArithComparesAbsent true exArithBare = true
    ∧ (∀ (v : Nat) (t : PyTree), RecAnnotateComparesAbsent v t = false) := by
  have hall : ∀ t : PyTree,
      (∃ p, isLeafAt t p = true ∧ some p ≠ leftmostLeafPath t ∧
        annAt t p = some none) →
      RecArithComparesAbsent true t = true := by
    rintro t ⟨p, hl, hne, ha⟩
    exact comparesAbsent_of_leaf true t p hl ha (by rintro ⟨_, h⟩; exact hne h)
  exact ⟨hall, hall exArithBare ⟨[1], by decide, by decide, by decide⟩,
    fun v t => recAnnotateComparesAbsent_false v t⟩

/-- Witness for C10: the general part applied to the bare `x + y` tree. -/
theorem recArith_absent_comparison_witness :
    RecArithComparesAbsent true exArithBare = true :=
  recArith_absent_comparison.1 exArithBare ⟨[1], by decide, by decide, by decide⟩

/-! ## The emitted trace only depends on the structure of the tree -/

mutual

theorem RecAnnotateEv_erase (v : Nat) (t : PyTree) :
    RecAnnotateEv v (erase t) = RecAnnotateEv v t := by
  match t with
  | .leaf ty va a => rfl
  | .node ty a cs =>
    simpa [erase, RecAnnotateEv] using RecAnnotateEvF_erase v 0 cs

theorem RecAnnotateEvF_erase (v : Nat) (i : Nat) (f : PyForest) :
    RecAnnotateEvF v i (eraseF f) = RecAnnotateEvF v i f := by
  match f with
  | .nil => rfl
  | .cons c rest =>
    simp [eraseF, RecAnnotateEvF, RecAnnotateEv_erase v c,
      RecAnnotateEvF_erase v (i + 1) rest]

end

mutual

theorem RecArithEv_erase (skip : Bool) (t : PyTree) :
    RecArithEv skip (erase t) = RecArithEv skip t := by
  match t with
  | .leaf ty va a => rfl
  | .node ty a cs =>
    simpa [erase, RecArithEv] using RecArithEvF_erase skip 0 cs

theorem RecArithEvF_erase (skip : Bool) (i : Nat) (f : PyForest) :
    RecArithEvF skip i (eraseF f) = RecArithEvF skip i f := by
  match f with
  | .nil => rfl
  | .cons c rest =>
    simp [eraseF, RecArithEvF, RecArithEv_erase skip c,
      RecArithEvF_erase false (i + 1) rest]

end

theorem scChildrenFromEv_erase (i : Nat) (f : PyForest) :
    scChildrenFromEv i (eraseF f) = scChildrenFromEv i f := by
  match f with
  | .nil => rfl
  | .cons c rest =>
    simp [eraseF, scChildrenFromEv, RecAnnotateEv_erase, scChildrenFromEv_erase (i + 1) rest]

theorem markUnbreakableEv_erase (cs : PyForest) (i k : Nat) :
    markUnbreakableEv (eraseF cs) i k = markUnbreakableEv cs i k := by
  match k with
  | 0 => rfl
  | k + 1 =>
    simp [markUnbreakableEv, eraseF_get, RecAnnotateEv_erase,
      markUnbreakableEv_erase cs (i + 1) k]

theorem scanIdx_congr (p₁ p₂ : Nat → Bool) (hp : ∀ i, p₁ i = p₂ i) (i n : Nat) :
    scanIdx p₁ i n = scanIdx p₂ i n := by
  match n with
  | 0 => rfl
  | n + 1 => simp [scanIdx, hp i, scanIdx_congr p₁ p₂ hp (i + 1) n]

theorem surroundedByParens_erase (par : Option PyTree) :
    surroundedByParens (par.map erase) = surroundedByParens par := by
  cases par with
  | none => rfl
  | some p =>
    simp [surroundedByParens, nodeName_erase, children_erase, eraseF_get,
      eraseF_length, isLeaf_erase, value_erase]

theorem powerMiddleEv_erase (cs : PyForest) (sur : Bool) (prev k : Nat) :
    powerMiddleEv (eraseF cs) sur prev k = powerMiddleEv cs sur prev k := by
  match k with
  | 0 => rfl
  | k + 1 =>
    rw [powerMiddleEv, powerMiddleEv]
    simp only [eraseF_get, nodeName_erase, children_erase, eraseF_length,
      eraseF_get, value_erase, RecAnnotateEv_erase]
    rw [powerMiddleEv_erase cs sur (prev + 1) k]

theorem powerLastEv_erase (i : Nat) (f : PyForest) :
    powerLastEv i (eraseF f) = powerLastEv i f := by
  match f with
  | .nil => rfl
  | .cons c rest =>
    simp only [eraseF]
    rw [powerLastEv, powerLastEv]
    simp only [nodeName_erase, children_erase, eraseF_get, eraseF_length,
      value_erase, RecAnnotateEv_erase]
    rw [powerLastEv_erase (i + 1) rest]

mutual

/-- The visitor's write trace is determined by the erased (structural)
tree: no control decision of any rule reads an annotation. -/
theorem visitEv_erase (par : Option PyTree) (t : PyTree) :
    visitEv (par.map erase) (erase t) = visitEv par t := by
  simp only [visitEv]
  simp only [nodeName_erase, children_erase, eraseF_length, eraseF_get, value_erase,
    isLeaf_erase, eraseF_drop, surroundedByParens_erase, RecAnnotateEv_erase,
    RecArithEv_erase, scChildrenFromEv_erase, markUnbreakableEv_erase,
    powerMiddleEv_erase, powerLastEv_erase]
  have hC := visitEvChildren_erase t 0 (children t)
  have hD := dictsetEv_erase t 0 none (children t)
  simp only [Option.map_none'] at hD
  rw [hC, hD]
termination_by sizeT t
decreasing_by
  all_goals simp_wf
  all_goals have h := sizeF_children_lt t
  all_goals omega

theorem visitEvChildren_erase (par : PyTree) (i : Nat) (f : PyForest) :
    visitEvChildren (erase par) i (eraseF f) = visitEvChildren par i f := by
  match f with
  | .nil => simp only [eraseF, visitEvChildren]
  | .cons c rest =>
    simp only [eraseF, visitEvChildren]
    have hv := visitEv_erase (some par) c
    simp only [Option.map_some'] at hv
    rw [hv, visitEvChildren_erase par (i + 1) rest]
termination_by sizeF f
decreasing_by
  all_goals simp_wf
  all_goals simp [sizeF]
  all_goals omega

theorem dictsetEv_erase (par : PyTree) (i : Nat) (prev : Option (Nat × PyTree))
    (f : PyForest) :
    dictsetEv (erase par) i (prev.map (fun pr => (pr.1, erase pr.2))) (eraseF f) =
      dictsetEv par i prev f := by
  match f with
  | .nil => simp only [eraseF, dictsetEv.eq_def]
  | .cons c rest =>
    simp only [eraseF]
    rw [dictsetEv.eq_def, dictsetEv.eq_def]
    simp only []
    have hv := visitEv_erase (some par) c
    simp only [Option.map_some'] at hv
    have hd := dictsetEv_erase par (i + 1) (some (i, c)) rest
    simp only [Option.map_some'] at hd
    cases prev with
    | none =>
      simp only [Option.map_none']
      rw [hv, hd, nodeName_erase, RecAnnotateEv_erase]
    | some pr =>
      simp only [Option.map_some']
      rw [hv, hd, nodeName_erase, RecAnnotateEv_erase, RecAnnotateEv_erase]
termination_by sizeF f
decreasing_by
  all_goals simp_wf
  all_goals simp [sizeF]
  all_goals omega

end

/-! ## Claim C3: idempotence of the full pass -/

/-- C3: running `ComputeSplitPenalties` twice produces, slot by slot,
exactly the same tree as running it once: the trace is determined by the
structure (which the pass never changes), and replaying any event list is
idempotent because each slot sees either a monotone max-merge or a
constant (clear followed by later merges). -/
theorem ComputeSplitPenalties_idempotent (t : PyTree) :
    ComputeSplitPenalties (ComputeSplitPenalties t) = ComputeSplitPenalties t := by
  unfold ComputeSplitPenalties
  have hE : visitEv none (applyEvents t (visitEv none t)) = visitEv none t := by
    have h1 : erase (applyEvents t (visitEv none t)) = erase t :=
      erase_applyEvents t (visitEv none t)
    calc visitEv none (applyEvents t (visitEv none t))
        = visitEv (Option.map erase none) (erase (applyEvents t (visitEv none t))) :=
          (visitEv_erase none _).symm
      _ = visitEv (Option.map erase none) (erase t) := by rw [h1]
      _ = visitEv none t := visitEv_erase none t
  rw [hE]
  apply eqT_of_erase_annAt
  · rw [erase_applyEvents, erase_applyEvents]
  · intro p
    rw [annAt_applyEvents, annAt_applyEvents]
    cases annAt t p with
    | none => rfl
    | some a => simp [evalList_idem]

/-- Witness instance of C3 at a concrete tree. -/
theorem ComputeSplitPenalties_idempotent_witness :
    ComputeSplitPenalties (ComputeSplitPenalties exArithBare) =
      ComputeSplitPenalties exArithBare :=
  ComputeSplitPenalties_idempotent exArithBare

/-! ## Clears in the trace come only from `Visit_comp_if` -/

theorem clear_mem_shift (i : Nat) (es : List PEvent) (q : Path) :
    PEvent.clear q ∈ shift i es ↔ ∃ q', q = i :: q' ∧ PEvent.clear q' ∈ es := by
  constructor
  · intro h
    rcases List.mem_map.mp h with ⟨e, he, heq⟩
    cases e with
    | raiseTo p v => simp [shiftE] at heq
    | clear p =>
      refine ⟨p, ?_, he⟩
      simp [shiftE] at heq
      simp [heq]
  · rintro ⟨q', rfl, h⟩
    exact List.mem_map.mpr ⟨.clear q', h, rfl⟩

mutual

theorem clear_not_in_RecAnnotateEv (v : Nat) (t : PyTree) (q : Path) :
    PEvent.clear q ∉ RecAnnotateEv v t := by
  match t with
  | .leaf ty va a => simp [RecAnnotateEv]
  | .node ty a cs =>
    rw [RecAnnotateEv]
    exact clear_not_in_RecAnnotateEvF v 0 cs q

theorem clear_not_in_RecAnnotateEvF (v i : Nat) (f : PyForest) (q : Path) :
    PEvent.clear q ∉ RecAnnotateEvF v i f := by
  match f with
  | .nil => simp [RecAnnotateEvF]
  | .cons c rest =>
    rw [RecAnnotateEvF]
    intro h
    rcases List.mem_append.mp h with h | h
    · rcases (clear_mem_shift i _ q).mp h with ⟨q', _, hm⟩
      exact clear_not_in_RecAnnotateEv v c q' hm
    · exact clear_not_in_RecAnnotateEvF v (i + 1) rest q h

end

mutual

theorem clear_not_in_RecArithEv (skip : Bool) (t : PyTree) (q : Path) :
    PEvent.clear q ∉ RecArithEv skip t := by
  match t with
  | .leaf ty va a => cases skip <;> simp [RecArithEv]
  | .node ty a cs =>
    rw [RecArithEv]
    exact clear_not_in_RecArithEvF skip 0 cs q

theorem clear_not_in_RecArithEvF (skip : Bool) (i : Nat) (f : PyForest) (q : Path) :
    PEvent.clear q ∉ RecArithEvF skip i f := by
  match f with
  | .nil => simp [RecArithEvF]
  | .cons c rest =>
    rw [RecArithEvF]
    intro h
    rcases List.mem_append.mp h with h | h
    · rcases (clear_mem_shift i _ q).mp h with ⟨q', _, hm⟩
      exact clear_not_in_RecArithEv skip c q' hm
    · exact clear_not_in_RecArithEvF false (i + 1) rest q h

end

theorem clear_not_in_scChildrenFromEv (i : Nat) (f : PyForest) (q : Path) :
    PEvent.clear q ∉ scChildrenFromEv i f := by
  match f with
  | .nil => simp [scChildrenFromEv]
  | .cons c rest =>
    rw [scChildrenFromEv]
    intro h
    rcases List.mem_append.mp h with h | h
    · rcases (clear_mem_shift i _ q).mp h with ⟨q', _, hm⟩
      exact clear_not_in_RecAnnotateEv _ c q' hm
    · exact clear_not_in_scChildrenFromEv (i + 1) rest q h

theorem clear_not_in_markUnbreakableEv (cs : PyForest) (i k : Nat) (q : Path) :
    PEvent.clear q ∉ markUnbreakableEv cs i k := by
  match k with
  | 0 => simp [markUnbreakableEv]
  | k + 1 =>
    rw [markUnbreakableEv]
    intro h
    rcases List.mem_append.mp h with h | h
    · rcases (clear_mem_shift i _ q).mp h with ⟨q', _, hm⟩
      exact clear_not_in_RecAnnotateEv _ _ q' hm
    · exact clear_not_in_markUnbreakableEv cs (i + 1) k q h

theorem clear_not_in_powerMiddleEv (cs : PyForest) (sur : Bool) (prev k : Nat)
    (q : Path) : PEvent.clear q ∉ powerMiddleEv cs sur prev k := by
  match k with
  | 0 => simp [powerMiddleEv]
  | k + 1 =>
    rw [powerMiddleEv]
    intro h
    split at h
    · rcases List.mem_append.mp h with h | h
      · rcases List.mem_append.mp h with h | h
        · split at h
          · rcases (clear_mem_shift _ _ q).mp h with ⟨q', _, hm⟩
            rcases (clear_mem_shift _ _ q').mp hm with ⟨q'', _, hm'⟩
            exact clear_not_in_RecAnnotateEv _ _ q'' hm'
          · simp at h
        · split at h
          · rcases (clear_mem_shift _ _ q).mp h with ⟨q', _, hm⟩
            rcases (clear_mem_shift _ _ q').mp hm with ⟨q'', _, hm'⟩
            exact clear_not_in_RecAnnotateEv _ _ q'' hm'
          · simp at h
      · exact clear_not_in_powerMiddleEv cs sur (prev + 1) k q h
    · simp at h

theorem clear_not_in_powerLastEv (i : Nat) (f : PyForest) (q : Path) :
    PEvent.clear q ∉ powerLastEv i f := by
  match f with
  | .nil => simp [powerLastEv]
  | .cons tr rest =>
    rw [powerLastEv]
    intro h
    split at h
    · rcases List.mem_append.mp h with h | h
      · split at h
        · rcases (clear_mem_shift _ _ q).mp h with ⟨q', _, hm⟩
          rcases (clear_mem_shift _ _ q').mp hm with ⟨q'', _, hm'⟩
          exact clear_not_in_RecAnnotateEv _ _ q'' hm'
        · simp at h
      · exact clear_not_in_powerLastEv (i + 1) rest q h
    · simp at h

theorem sizeT_get_le (f : PyForest) (j : Nat) (hj : j < f.length) :
    sizeT (f.get j) ≤ sizeF f := by
  match f, j with
  | .nil, j => simp [PyForest.length] at hj
  | .cons c rest, 0 => simp [PyForest.get, sizeF]; omega
  | .cons c rest, j + 1 =>
    have hj' : j < rest.length := by simp [PyForest.length] at hj; omega
    have := sizeT_get_le rest j hj'
    simp [PyForest.get, sizeF]
    omega

theorem clear_in_visitEvChildren (par : PyTree) (i : Nat) (f : PyForest) (q : Path)
    (h : PEvent.clear q ∈ visitEvChildren par i f) :
    ∃ j q', j < f.length ∧ q = (i + j) :: q' ∧
      PEvent.clear q' ∈ visitEv (some par) (f.get j) := by
  match f with
  | .nil => rw [visitEvChildren] at h; simp at h
  | .cons c rest =>
    rw [visitEvChildren] at h
    rcases List.mem_append.mp h with h | h
    · rcases (clear_mem_shift i _ q).mp h with ⟨q', rfl, hm⟩
      exact ⟨0, q', by simp [PyForest.length], by simp, hm⟩
    · obtain ⟨j, q', hj, rfl, hm⟩ := clear_in_visitEvChildren par (i + 1) rest q h
      refine ⟨j + 1, q', by simp [PyForest.length]; omega, by simp; omega, ?_⟩
      simpa [PyForest.get] using hm

theorem clear_in_dictsetEv (par : PyTree) (i : Nat) (prev : Option (Nat × PyTree))
    (f : PyForest) (q : Path)
    (h : PEvent.clear q ∈ dictsetEv par i prev f) :
    ∃ j q', j < f.length ∧ q = (i + j) :: q' ∧
      PEvent.clear q' ∈ visitEv (some par) (f.get j) := by
  match f with
  | .nil => rw [dictsetEv.eq_def] at h; simp at h
  | .cons c rest =>
    rw [dictsetEv.eq_def] at h
    simp only [] at h
    rcases List.mem_append.mp h with h | h
    · rcases List.mem_append.mp h with h | h
      · rcases (clear_mem_shift i _ q).mp h with ⟨q', rfl, hm⟩
        exact ⟨0, q', by simp [PyForest.length], by simp, hm⟩
      · exfalso
        split at h
        · rcases List.mem_append.mp h with h | h
          · split at h
            · rcases (clear_mem_shift _ _ q).mp h with ⟨q', _, hm⟩
              exact clear_not_in_RecAnnotateEv _ _ q' hm
            · simp at h
          · rcases (clear_mem_shift _ _ q).mp h with ⟨q', _, hm⟩
            exact clear_not_in_RecAnnotateEv _ _ q' hm
        · simp at h
    · obtain ⟨j, q', hj, rfl, hm⟩ := clear_in_dictsetEv par (i + 1) (some (i, c)) rest q h
      refine ⟨j + 1, q', by simp [PyForest.length]; omega, by simp; omega, ?_⟩
      simpa [PyForest.get] using hm

/-- Every clear event in the visitor's trace targets child 0 of a
`comp_if` node: the single explicit clear of `Visit_comp_if` is the only
clear the pass ever emits. -/
theorem clear_in_visitEv (par : Option PyTree) (t : PyTree) (q : Path)
    (h : PEvent.clear q ∈ visitEv par t) :
    ∃ q0 n, q = q0 ++ [0] ∧ nodeAt t q0 = some n ∧ nodeName n = "comp_if" := by
  have hstep : ∀ j q', j < (children t).length →
      PEvent.clear q' ∈ visitEv (some t) ((children t).get j) →
      ∃ q0 n, (j :: q' : Path) = q0 ++ [0] ∧ nodeAt t q0 = some n ∧
        nodeName n = "comp_if" := by
    intro j q' hj hm
    obtain ⟨q0', n, heq, hn, hname⟩ :=
      clear_in_visitEv (some t) ((children t).get j) q' hm
    refine ⟨j :: q0', n, by simp [heq], ?_, hname⟩
    cases t with
    | leaf ty va a => simp [children, PyForest.length] at hj
    | node ty a cs =>
      simp only [children] at hj hn ⊢
      rw [nodeAt, nodeAtF_eq_get, if_pos hj]
      exact hn
  have hchild : PEvent.clear q ∈ visitEvChildren t 0 (children t) →
      (∃ q0 n, q = q0 ++ [0] ∧ nodeAt t q0 = some n ∧ nodeName n = "comp_if") := by
    intro hmem
    obtain ⟨j, q', hj, heq, hm⟩ := clear_in_visitEvChildren t 0 (children t) q hmem
    obtain ⟨q0, n, heq2, hn, hname⟩ := hstep j q' hj hm
    refine ⟨q0, n, ?_, hn, hname⟩
    rw [heq]
    simpa using heq2
  have hnoSC : ∀ i f, PEvent.clear q ∉ scChildrenFromEv i f :=
    fun i f => clear_not_in_scChildrenFromEv i f q
  simp only [visitEv] at h
  by_cases h1 : nodeName t = "classdef"
  · rw [if_pos h1] at h
    rcases List.mem_append.mp h with h | h
    · rcases List.mem_append.mp h with h | h
      · rcases List.mem_append.mp h with h | h
        · rcases (clear_mem_shift _ _ _).mp h with ⟨q', _, hm⟩
          exact absurd hm (clear_not_in_RecAnnotateEv _ _ q')
        · split at h
          · rcases (clear_mem_shift _ _ _).mp h with ⟨q', _, hm⟩
            exact absurd hm (clear_not_in_RecAnnotateEv _ _ q')
          · simp at h
      · rcases (clear_mem_shift _ _ _).mp h with ⟨q', _, hm⟩
        exact absurd hm (clear_not_in_RecAnnotateEv _ _ q')
    · exact hchild h
  rw [if_neg h1] at h
  by_cases h2 : nodeName t = "funcdef"
  · rw [if_pos h2] at h
    rcases List.mem_append.mp h with h | h
    · rcases List.mem_append.mp h with h | h
      · rcases (clear_mem_shift _ _ _).mp h with ⟨q', _, hm⟩
        exact absurd hm (clear_not_in_RecAnnotateEv _ _ q')
      · rcases (clear_mem_shift _ _ _).mp h with ⟨q', _, hm⟩
        exact absurd hm (clear_not_in_RecAnnotateEv _ _ q')
    · exact hchild h
  rw [if_neg h2] at h
  by_cases h3 : nodeName t = "lambdef"
  · rw [if_pos h3] at h
    rcases List.mem_append.mp h with h | h
    · exact hchild h
    · exact absurd h (clear_not_in_markUnbreakableEv _ _ _ q)
  rw [if_neg h3] at h
  by_cases h4 : nodeName t = "parameters"
  · rw [if_pos h4] at h
    rcases List.mem_append.mp h with h | h
    · rcases List.mem_append.mp h with h | h
      · exact hchild h
      · rcases (clear_mem_shift _ _ _).mp h with ⟨q', _, hm⟩
        exact absurd hm (clear_not_in_RecAnnotateEv _ _ q')
    · split at h
      · rcases (clear_mem_shift _ _ _).mp h with ⟨q', _, hm⟩
        exact absurd hm (clear_not_in_RecAnnotateEv _ _ q')
      · simp at h
  rw [if_neg h4] at h
  by_cases h5 : nodeName t = "dotted_name"
  · rw [if_pos h5] at h
    rcases List.mem_append.mp h with h | h
    · exact hchild h
    · exact absurd h (clear_not_in_markUnbreakableEv _ _ _ q)
  rw [if_neg h5] at h
  by_cases h6 : nodeName t = "dictsetmaker"
  · rw [if_pos h6] at h
    obtain ⟨j, q', hj, heq, hm⟩ := clear_in_dictsetEv t 0 none (children t) q h
    obtain ⟨q0, n, heq2, hn, hname⟩ := hstep j q' hj hm
    refine ⟨q0, n, ?_, hn, hname⟩
    rw [heq]
    simpa using heq2
  rw [if_neg h6] at h
  by_cases h7 : nodeName t = "comparison"
  · rw [if_pos h7] at h
    rcases List.mem_append.mp h with h | h
    · exact hchild h
    · exact absurd h (clear_not_in_RecArithEv true t q)
  rw [if_neg h7] at h
  by_cases h8 : nodeName t = "arith_expr"
  · rw [if_pos h8] at h
    rcases List.mem_append.mp h with h | h
    · exact hchild h
    · exact absurd h (clear_not_in_RecArithEv true t q)
  rw [if_neg h8] at h
  by_cases h9 : nodeName t = "term"
  · rw [if_pos h9] at h
    rcases List.mem_append.mp h with h | h
    · exact hchild h
    · exact absurd h (clear_not_in_RecArithEv true t q)
  rw [if_neg h9] at h
  by_cases h10 : nodeName t = "trailer"
  · rw [if_pos h10] at h
    rcases List.mem_append.mp h with h | h
    · exact hchild h
    split at h
    · rcases List.mem_append.mp h with h | h
      · rcases (clear_mem_shift _ _ _).mp h with ⟨q', _, hm⟩
        exact absurd hm (clear_not_in_RecAnnotateEv _ _ q')
      · rcases (clear_mem_shift _ _ _).mp h with ⟨q', _, hm⟩
        exact absurd hm (clear_not_in_RecAnnotateEv _ _ q')
    split at h
    · rcases (clear_mem_shift _ _ _).mp h with ⟨q', _, hm⟩
      exact absurd hm (clear_not_in_RecAnnotateEv _ _ q')
    · simp at h
  rw [if_neg h10] at h
  by_cases h11 : nodeName t = "power"
  · rw [if_pos h11] at h
    rcases List.mem_append.mp h with h | h
    · exact hchild h
    rcases List.mem_append.mp h with h | h
    · split at h
      · rcases List.mem_append.mp h with h | h
        · rcases (clear_mem_shift _ _ _).mp h with ⟨q', _, hm⟩
          rcases (clear_mem_shift _ _ _).mp hm with ⟨q'', _, hm'⟩
          exact absurd hm' (clear_not_in_RecAnnotateEv _ _ q'')
        · exact absurd h (clear_not_in_powerMiddleEv _ _ _ _ q)
      · simp at h
    · exact absurd h (clear_not_in_powerLastEv _ _ q)
  rw [if_neg h11] at h
  by_cases h12 : nodeName t = "subscript"
  · rw [if_pos h12] at h
    rcases List.mem_append.mp h with h | h
    · exact absurd h (hnoSC _ _)
    · exact hchild h
  rw [if_neg h12] at h
  by_cases h13 : nodeName t = "comp_for"
  · rw [if_pos h13] at h
    rcases List.mem_append.mp h with h | h
    · exact absurd h (hnoSC _ _)
    · exact hchild h
  rw [if_neg h13] at h
  by_cases h14 : nodeName t = "comp_if"
  · rw [if_pos h14] at h
    rcases List.mem_cons.mp h with heq | h
    · have hq : q = [0] := by injection heq
      exact ⟨[], t, by simp [hq], by cases t <;> rfl, h14⟩
    rcases List.mem_append.mp h with h | h
    · exact absurd h (hnoSC _ _)
    · exact hchild h
  rw [if_neg h14] at h
  split at h
  · simp at h
  · exact hchild h
termination_by sizeT t
decreasing_by
  all_goals simp_wf
  all_goals have h1 := sizeT_get_le (children t) j hj
  all_goals have h2 := sizeF_children_lt t
  all_goals omega

/-! ## Claim C2 -/

/-- Slot comparison for monotonicity: a slot that held a value may only
end with a greater or equal value; absent or invalid slots impose no
constraint. -/
def annLe : Option (Option Nat) → Option (Option Nat) → Prop
  | some (some a), x => ∃ b, x = some (some b) ∧ a ≤ b
  | _, _ => True

/-- A comp_if example: `if x` as a filter clause. -/
def exCompIf : PyTree :=
  .node "comp_if" none (ofList [.leaf "NAME" "if" none, .leaf "NAME" "x" none])

/-- C2: along the whole `ComputeSplitPenalties` trace on any input tree,
every single write either never lowers any slot (the guarded max-merge
raises), or it is the one explicit clear of `Visit_comp_if`, which targets
exactly child 0 of a `comp_if` node (the clause's leading `if` token),
resets that slot to absent, and changes nothing else. -/
theorem pass_monotone_except_comp_if_clear (t : PyTree) (E₁ : List PEvent)
    (e : PEvent) (E₂ : List PEvent) (hsplit : visitEv none t = E₁ ++ e :: E₂) :
    (∀ p, annLe (annAt (applyEvents t E₁) p)
        (annAt (applyEvent (applyEvents t E₁) e) p))
    ∨ (∃ q0 n, e = PEvent.clear (q0 ++ [0]) ∧ nodeAt t q0 = some n ∧
        nodeName n = "comp_if"
        ∧ (∀ p, p ≠ q0 ++ [0] →
            annAt (applyEvent (applyEvents t E₁) e) p = annAt (applyEvents t E₁) p)
        ∧ (∀ a, annAt (applyEvents t E₁) (q0 ++ [0]) = some a →
            annAt (applyEvent (applyEvents t E₁) e) (q0 ++ [0]) = some none)) := by
  cases e with
  | raiseTo q v =>
    left
    intro p
    rw [annAt_applyEvent]
    cases ha : annAt (applyEvents t E₁) p with
    | none => simp [annLe]
    | some a =>
      cases a with
      | none => simp [annLe]
      | some x =>
        simp only [Option.map_some']
        by_cases hq : PEvent.target (PEvent.raiseTo q v) = p
        · rw [show PEvent.target (PEvent.raiseTo q v) = q from rfl] at hq
          subst hq
          rw [evalE_raise_self]
          exact ⟨max x v, rfl, Nat.le_max_left _ _⟩
        · rw [evalE_ne _ _ hq]
          exact ⟨x, rfl, Nat.le_refl _⟩
  | clear q =>
    right
    have hmem : PEvent.clear q ∈ visitEv none t := by
      rw [hsplit]
      exact List.mem_append.mpr (Or.inr (List.mem_cons_self _ _))
    obtain ⟨q0, n, rfl, hn, hname⟩ := clear_in_visitEv none t q hmem
    refine ⟨q0, n, rfl, hn, hname, ?_, ?_⟩
    · intro p hp
      rw [annAt_applyEvent, evalE_ne _ _ (by simpa [PEvent.target] using Ne.symm hp)]
      cases annAt (applyEvents t E₁) p <;> rfl
    · intro a ha
      rw [annAt_applyEvent, evalE_clear_self, ha]
      rfl

/-- Witness for C2: on the `if x` filter clause, the first trace event is
exactly the clear of the leading `if` token. -/
theorem pass_monotone_except_comp_if_clear_witness :
    (∀ p, annLe (annAt (applyEvents exCompIf []) p)
        (annAt (applyEvent (applyEvents exCompIf []) (PEvent.clear [0])) p))
    ∨ (∃ q0 n, (PEvent.clear [0] : PEvent) = PEvent.clear (q0 ++ [0]) ∧
        nodeAt exCompIf q0 = some n ∧ nodeName n = "comp_if"
        ∧ (∀ p, p ≠ q0 ++ [0] →
            annAt (applyEvent (applyEvents exCompIf []) (PEvent.clear [0])) p =
              annAt (applyEvents exCompIf []) p)
        ∧ (∀ a, annAt (applyEvents exCompIf []) (q0 ++ [0]) = some a →
            annAt (applyEvent (applyEvents exCompIf []) (PEvent.clear [0])) (q0 ++ [0]) =
              some none)) := by
  apply pass_monotone_except_comp_if_clear exCompIf []
    (PEvent.clear [0]) [PEvent.raiseTo [1] STRONGLY_CONNECTED]
  simp [visitEv, visitEvChildren, scChildrenFromEv, RecAnnotateEv, RecAnnotateEvF,
    exCompIf, ofList, children, nodeName, PyForest.drop, PyTree.isLeaf, shift, shiftE]

/-! ## Final-value lemmas: a raise not followed by a clear persists -/

/-- The slot at `p` holds a value of at least `v`. -/
def annGeV (x : Option (Option Nat)) (v : Nat) : Prop :=
  ∃ b, x = some (some b) ∧ v ≤ b

theorem evalList_noclear_mono (es : List PEvent) (p : Path)
    (hnc : PEvent.clear p ∉ es) (b : Nat) :
    ∃ b', evalList es p (some b) = some b' ∧ b ≤ b' := by
  induction es generalizing b with
  | nil => exact ⟨b, rfl, Nat.le_refl _⟩
  | cons e es ih =>
    have hnc' : PEvent.clear p ∉ es := fun hm => hnc (List.mem_cons_of_mem _ hm)
    by_cases ht : e.target = p
    · cases e with
      | raiseTo q v =>
        have he : evalE (.raiseTo q v) p (some b) = some (max b v) := by
          simp [evalE, ht, omax]
        rw [evalList, he]
        obtain ⟨b', hb', hle⟩ := ih hnc' (max b v)
        exact ⟨b', hb', Nat.le_trans (Nat.le_max_left _ _) hle⟩
      | clear q =>
        exact absurd (by simp [PEvent.target] at ht; simp [ht]) hnc
    · rw [evalList, evalE_ne _ _ ht]
      exact ih hnc' b

theorem evalList_raise_ge (es : List PEvent) (p : Path) (v : Nat)
    (hmem : PEvent.raiseTo p v ∈ es) (hnc : PEvent.clear p ∉ es) (a : Option Nat) :
    ∃ b, evalList es p a = some b ∧ v ≤ b := by
  induction es generalizing a with
  | nil => simp at hmem
  | cons e es ih =>
    have hnc' : PEvent.clear p ∉ es := fun hm => hnc (List.mem_cons_of_mem _ hm)
    rcases List.mem_cons.mp hmem with heq | hmem'
    · subst heq
      rw [evalList, evalE_raise_self]
      cases a with
      | none =>
        obtain ⟨b, hb, hle⟩ := evalList_noclear_mono es p hnc' v
        exact ⟨b, by simpa [omax] using hb, hle⟩
      | some x =>
        obtain ⟨b, hb, hle⟩ := evalList_noclear_mono es p hnc' (max x v)
        exact ⟨b, by simpa [omax] using hb,
          Nat.le_trans (Nat.le_max_right _ _) hle⟩
    · rw [evalList]
      exact ih hmem' hnc' _

/-- If at some point of the trace a raise of `v` is written to `p` and no
later event clears `p`, then `p` ends with a value of at least `v`. -/
theorem annGeV_suffix (t : PyTree) (E₁ E₂ : List PEvent) (p : Path) (v : Nat)
    (hmem : PEvent.raiseTo p v ∈ E₂) (hnc : PEvent.clear p ∉ E₂)
    (hvalid : (annAt t p).isSome = true) :
    annGeV (annAt (applyEvents t (E₁ ++ E₂)) p) v := by
  rw [annAt_applyEvents]
  cases ha : annAt t p with
  | none => rw [ha] at hvalid; simp at hvalid
  | some a =>
    obtain ⟨b, hb, hle⟩ := evalList_raise_ge E₂ p v hmem hnc (evalList E₁ p a)
    refine ⟨b, ?_, hle⟩
    simp only [Option.map_some']
    rw [evalList_append, hb]

/-- If no event of the trace targets `p`, the slot at `p` is unchanged. -/
theorem annAt_unchanged_of_no_target (t : PyTree) (E : List PEvent) (p : Path)
    (h : ∀ e ∈ E, e.target ≠ p) : annAt (applyEvents t E) p = annAt t p :=
  annAt_applyEvents_no_target t E p h

theorem RecAnnotateEv_leaf (v : Nat) (t : PyTree) (h : t.isLeaf = true) :
    RecAnnotateEv v t = [.raiseTo [] v] := by
  cases t with
  | leaf ty va a => rfl
  | node ty a cs => simp [PyTree.isLeaf] at h

mutual

theorem raise_mem_RecAnnotateEv (v : Nat) (t : PyTree) (q : Path)
    (h : isLeafAt t q = true) : PEvent.raiseTo q v ∈ RecAnnotateEv v t := by
  match t, q with
  | .leaf ty va a, [] => simp [RecAnnotateEv]
  | .leaf ty va a, _ :: _ => simp [isLeafAt, nodeAt] at h
  | .node ty a cs, [] => simp [isLeafAt, nodeAt, PyTree.isLeaf] at h
  | .node ty a cs, j :: q =>
    rw [RecAnnotateEv]
    rw [isLeafAt_node_cons] at h
    by_cases hj : j < cs.length
    · rw [if_pos hj] at h
      exact raise_mem_RecAnnotateEvF v cs 0 j q (by omega) (by simpa using h)
    · rw [if_neg hj] at h; simp at h

theorem raise_mem_RecAnnotateEvF (v : Nat) (f : PyForest) (i j : Nat) (q : Path)
    (hj : j - i < f.length ∧ i ≤ j) (h : isLeafAt (f.get (j - i)) q = true) :
    PEvent.raiseTo (j :: q) v ∈ RecAnnotateEvF v i f := by
  match f with
  | .nil => simp [PyForest.length] at hj
  | .cons c rest =>
    rw [RecAnnotateEvF]
    by_cases hji : j = i
    · subst hji
      apply List.mem_append.mpr
      left
      have h0 : (PyForest.cons c rest).get (j - j) = c := by
        simp [Nat.sub_self, PyForest.get]
      rw [h0] at h
      have := raise_mem_RecAnnotateEv v c q h
      exact List.mem_map.mpr ⟨.raiseTo q v, this, rfl⟩
    · apply List.mem_append.mpr
      right
      have hgt : j - i = (j - (i + 1)) + 1 := by omega
      apply raise_mem_RecAnnotateEvF v rest (i + 1) j q
      · constructor
        · simp [PyForest.length] at hj
          omega
        · omega
      · rw [hgt] at h
        simpa [PyForest.get] using h

end

theorem applyEvents_append (t : PyTree) (E₁ E₂ : List PEvent) :
    applyEvents t (E₁ ++ E₂) = applyEvents (applyEvents t E₁) E₂ := by
  simp [applyEvents, List.foldl_append]

theorem dropF_length (f : PyForest) (n : Nat) : (f.drop n).length = f.length - n := by
  match f, n with
  | f, 0 => simp [PyForest.drop]
  | .nil, n + 1 => simp [PyForest.drop, PyForest.length]
  | .cons c rest, n + 1 =>
    simp [PyForest.drop, PyForest.length, dropF_length rest n]
    omega

theorem dropF_get (f : PyForest) (n m : Nat) : (f.drop n).get m = f.get (n + m) := by
  match f, n with
  | f, 0 => simp [PyForest.drop]
  | .nil, n + 1 => simp [PyForest.drop, PyForest.get]
  | .cons c rest, n + 1 =>
    have := dropF_get rest n m
    simp [PyForest.drop, PyForest.get, this]
    have : n + 1 + m = (n + m) + 1 := by omega
    rw [this]
    simp [PyForest.get]

theorem target_mem_shift (i : Nat) (es : List PEvent) (e : PEvent)
    (h : e ∈ shift i es) : ∃ q, e.target = i :: q := by
  rcases List.mem_map.mp h with ⟨e', _, rfl⟩
  cases e' <;> exact ⟨_, rfl⟩

theorem raise_mem_shift (i : Nat) (es : List PEvent) (q : Path) (v : Nat)
    (h : PEvent.raiseTo q v ∈ es) : PEvent.raiseTo (i :: q) v ∈ shift i es :=
  List.mem_map.mpr ⟨.raiseTo q v, h, rfl⟩

theorem isSome_of_isLeafAt (t : PyTree) (p : Path) (h : isLeafAt t p = true) :
    (nodeAt t p).isSome = true := by
  unfold isLeafAt at h
  cases hn : nodeAt t p with
  | none => rw [hn] at h; simp at h
  | some n => rfl

/-- If the second component of a two-step path is non-zero, no clear of
the trace can target it (clears target a `comp_if` child 0). -/
theorem no_clear_pair_of_ne_zero (par : Option PyTree) (t : PyTree) (i x : Nat)
    (hx : x ≠ 0) : PEvent.clear [i, x] ∉ visitEv par t := by
  intro h
  obtain ⟨q0, n, heq, _, _⟩ := clear_in_visitEv par t [i, x] h
  match q0, heq with
  | [], heq => simp at heq
  | [a], heq => simp at heq; omega
  | a :: b :: q0, heq => simp at heq

/-- No clear of the trace targets `[i, x]` when the node at `[i]` is not a
`comp_if` node. -/
theorem no_clear_pair_of_not_comp_if (par : Option PyTree) (t : PyTree) (i x : Nat)
    (hno : ∀ n, nodeAt t [i] = some n → nodeName n ≠ "comp_if") :
    PEvent.clear [i, x] ∉ visitEv par t := by
  intro h
  obtain ⟨q0, n, heq, hn, hname⟩ := clear_in_visitEv par t [i, x] h
  match q0, heq with
  | [], heq => simp at heq
  | [a], heq =>
    simp at heq
    obtain ⟨rfl, _⟩ := heq
    exact hno n hn hname
  | a :: b :: q0, heq => simp at heq

/-- No clear of the trace targets a singleton path with a non-zero index. -/
theorem no_clear_single_of_ne_zero (par : Option PyTree) (t : PyTree) (i : Nat)
    (hi : i ≠ 0) : PEvent.clear [i] ∉ visitEv par t := by
  intro h
  obtain ⟨q0, n, heq, _, _⟩ := clear_in_visitEv par t [i] h
  match q0, heq with
  | [], heq => simp at heq; omega
  | a :: q0, heq => simp at heq

/-! ## Per-rule unfolding of the dispatch -/

theorem visitEv_classdef_arm (par : Option PyTree) (t : PyTree)
    (h : nodeName t = "classdef") :
    visitEv par t =
      shift 1 (RecAnnotateEv UNBREAKABLE ((children t).get 1)) ++
      (if 4 < (children t).length then
        shift 2 (RecAnnotateEv UNBREAKABLE ((children t).get 2)) else []) ++
      shift ((children t).length - 2)
        (RecAnnotateEv UNBREAKABLE ((children t).get ((children t).length - 2))) ++
      visitEvChildren t 0 (children t) := by
  simp [visitEv, h]

theorem visitEv_lambdef_arm (par : Option PyTree) (t : PyTree)
    (h : nodeName t = "lambdef") :
    visitEv par t =
      visitEvChildren t 0 (children t) ++
      markUnbreakableEv (children t) 1
        ((if nodeName ((children t).get 1) ≠ "COLON" then 3 else 2) - 1) := by
  simp [visitEv, h]

theorem visitEv_dictsetmaker_arm (par : Option PyTree) (t : PyTree)
    (h : nodeName t = "dictsetmaker") :
    visitEv par t = dictsetEv t 0 none (children t) := by
  simp [visitEv, h]

theorem visitEv_power_arm (par : Option PyTree) (t : PyTree)
    (h : nodeName t = "power") :
    visitEv par t =
      visitEvChildren t 0 (children t) ++
      ((if 1 < (children t).length ∧ nodeName ((children t).get 1) = "trailer" then
          shift 1 (shift 0 (RecAnnotateEv UNBREAKABLE
            ((children ((children t).get 1)).get 0))) ++
          powerMiddleEv (children t) (surroundedByParens par) 1
            ((children t).length - 1 - 1)
        else []) ++
       powerLastEv 1 ((children t).drop 1)) := by
  simp [visitEv, h]

/-! ## Membership of the forced raises in the loop traces -/

theorem powerMiddle_mem_last (cs : PyForest) (sur : Bool) (prev k i : Nat)
    (hpi : prev ≤ i) (hfuel : i + 1 ≤ prev + k)
    (htr : ∀ j, prev + 1 ≤ j → j ≤ i + 1 → nodeName (cs.get j) = "trailer")
    (hval : value ((children (cs.get i)).get ((children (cs.get i)).length - 1)) ≠ ")")
    (hleaf : ((children (cs.get i)).get ((children (cs.get i)).length - 1)).isLeaf = true) :
    PEvent.raiseTo [i, (children (cs.get i)).length - 1] UNBREAKABLE ∈
      powerMiddleEv cs sur prev k := by
  match k with
  | 0 => omega
  | k + 1 =>
    rw [powerMiddleEv]
    have htrc : nodeName (cs.get (prev + 1)) = "trailer" :=
      htr (prev + 1) (Nat.le_refl _) (by omega)
    rw [if_pos htrc]
    by_cases hp : prev = i
    · subst hp
      apply List.mem_append.mpr; left
      apply List.mem_append.mpr; left
      rw [if_pos hval]
      rw [RecAnnotateEv_leaf _ _ hleaf]
      simp [shift, shiftE]
    · apply List.mem_append.mpr; right
      exact powerMiddle_mem_last cs sur (prev + 1) k i (by omega) (by omega)
        (fun j h1 h2 => htr j (by omega) h2) hval hleaf

theorem powerMiddle_mem_first (cs : PyForest) (sur : Bool) (prev k i : Nat)
    (hpi : prev ≤ i) (hfuel : i + 1 ≤ prev + k)
    (htr : ∀ j, prev + 1 ≤ j → j ≤ i + 1 → nodeName (cs.get j) = "trailer")
    (hsur : sur = false)
    (hleaf : ((children (cs.get (i + 1))).get 0).isLeaf = true) :
    PEvent.raiseTo [i + 1, 0] UNBREAKABLE ∈ powerMiddleEv cs sur prev k := by
  match k with
  | 0 => omega
  | k + 1 =>
    rw [powerMiddleEv]
    have htrc : nodeName (cs.get (prev + 1)) = "trailer" :=
      htr (prev + 1) (Nat.le_refl _) (by omega)
    rw [if_pos htrc]
    by_cases hp : prev = i
    · subst hp
      apply List.mem_append.mpr; left
      apply List.mem_append.mpr; right
      rw [hsur]
      simp only [Bool.not_false, if_pos]
      rw [RecAnnotateEv_leaf _ _ hleaf]
      simp [shift, shiftE]
    · apply List.mem_append.mpr; right
      exact powerMiddle_mem_first cs sur (prev + 1) k i (by omega) (by omega)
        (fun j h1 h2 => htr j (by omega) h2) hsur hleaf

theorem powerLast_mem (f : PyForest) (s j : Nat)
    (hj : j < f.length) (htr : ∀ m, m ≤ j → nodeName (f.get m) = "trailer")
    (hop : value ((children (f.get j)).get 0) = "(")
    (hlen : 2 < (children (f.get j)).length)
    (hleaf : ((children (f.get j)).get ((children (f.get j)).length - 1)).isLeaf = true) :
    PEvent.raiseTo [s + j, (children (f.get j)).length - 1] UNBREAKABLE ∈
      powerLastEv s f := by
  match f, j with
  | .nil, j => simp [PyForest.length] at hj
  | .cons tr rest, 0 =>
    rw [powerLastEv]
    rw [if_pos (by simpa [PyForest.get] using htr 0 (Nat.le_refl _))]
    apply List.mem_append.mpr; left
    simp only [PyForest.get] at hop hlen hleaf ⊢
    rw [if_pos ⟨hop, hlen⟩]
    rw [RecAnnotateEv_leaf _ _ hleaf]
    simp [shift, shiftE]
  | .cons tr rest, j + 1 =>
    rw [powerLastEv]
    rw [if_pos (by simpa [PyForest.get] using htr 0 (by omega))]
    apply List.mem_append.mpr; right
    have hj' : j < rest.length := by simp [PyForest.length] at hj; omega
    have := powerLast_mem rest (s + 1) j hj'
      (fun m hm => by simpa [PyForest.get] using htr (m + 1) (by omega))
      (by simpa [PyForest.get] using hop)
      (by simpa [PyForest.get] using hlen)
      (by simpa [PyForest.get] using hleaf)
    have harith : s + 1 + j = s + (j + 1) := by omega
    rw [harith] at this
    simpa [PyForest.get] using this

theorem mark_mem (cs : PyForest) (i k j : Nat) (q : Path)
    (hij : i ≤ j) (hjk : j < i + k) (hleaf : isLeafAt (cs.get j) q = true) :
    PEvent.raiseTo (j :: q) UNBREAKABLE ∈ markUnbreakableEv cs i k := by
  match k with
  | 0 => omega
  | k + 1 =>
    rw [markUnbreakableEv]
    by_cases hji : j = i
    · subst hji
      apply List.mem_append.mpr; left
      exact raise_mem_shift j _ q _ (raise_mem_RecAnnotateEv _ _ q hleaf)
    · apply List.mem_append.mpr; right
      exact mark_mem cs (i + 1) k j q (by omega) (by omega) hleaf

theorem mark_targets (cs : PyForest) (i k : Nat) (e : PEvent)
    (h : e ∈ markUnbreakableEv cs i k) :
    ∃ j q, e.target = j :: q ∧ i ≤ j ∧ j < i + k := by
  match k with
  | 0 => simp [markUnbreakableEv] at h
  | k + 1 =>
    rw [markUnbreakableEv] at h
    rcases List.mem_append.mp h with h | h
    · obtain ⟨q, hq⟩ := target_mem_shift i _ e h
      exact ⟨i, q, hq, Nat.le_refl _, by omega⟩
    · obtain ⟨j, q, hq, h1, h2⟩ := mark_targets cs (i + 1) k e h
      exact ⟨j, q, hq, by omega, by omega⟩

theorem nodeAt_nil (t : PyTree) : nodeAt t [] = some t := by
  cases t <;> rfl

theorem nodeAt_cons_get (t : PyTree) (i : Nat) (q : Path)
    (hi : i < (children t).length) :
    nodeAt t (i :: q) = nodeAt ((children t).get i) q := by
  cases t with
  | leaf ty va a => simp [children, PyForest.length] at hi
  | node ty a cs =>
    simp only [children] at hi ⊢
    rw [nodeAt, nodeAtF_eq_get, if_pos hi]

/-! ## Claim C5 (amended) -/

/-- C5 amended: in a `power` node whose children `1 .. i+1` are a run of
trailers, the consecutive-trailer clause of `Visit_power` forces the last
token of trailer `i` to at least `UNBREAKABLE` unless that token's text is
a closing parenthesis (i.e. unless trailer `i` is a call, empty or not),
and, whenever the chain is not wrapped in an enclosing parenthesized atom,
forces the first token of trailer `i+1` to at least `UNBREAKABLE`
regardless. -/
theorem power_consecutive_trailers_amended (par : Option PyTree) (t : PyTree)
    (i : Nat) (hname : nodeName t = "power")
    (hi1 : 1 ≤ i) (hi2 : i + 1 < (children t).length)
    (htr : ∀ j, 1 ≤ j → j ≤ i + 1 → nodeName ((children t).get j) = "trailer") :
    (value ((children ((children t).get i)).get
        ((children ((children t).get i)).length - 1)) ≠ ")" →
      0 < (children ((children t).get i)).length →
      ((children ((children t).get i)).get
        ((children ((children t).get i)).length - 1)).isLeaf = true →
      annGeV (annAt (applyEvents t (visitEv par t))
        [i, (children ((children t).get i)).length - 1]) UNBREAKABLE)
    ∧ (surroundedByParens par = false →
      0 < (children ((children t).get (i + 1))).length →
      ((children ((children t).get (i + 1))).get 0).isLeaf = true →
      annGeV (annAt (applyEvents t (visitEv par t)) [i + 1, 0]) UNBREAKABLE) := by
  have harm := visitEv_power_arm par t hname
  have hcond : 1 < (children t).length ∧ nodeName ((children t).get 1) = "trailer" :=
    ⟨by omega, htr 1 (Nat.le_refl _) (by omega)⟩
  have hfuel : i + 1 ≤ 1 + ((children t).length - 1 - 1) := by omega
  constructor
  · intro hval hpos hleaf
    have hmem : PEvent.raiseTo [i, (children ((children t).get i)).length - 1]
        UNBREAKABLE ∈ visitEv par t := by
      rw [harm]
      apply List.mem_append.mpr; right
      apply List.mem_append.mpr; left
      rw [if_pos hcond]
      apply List.mem_append.mpr; right
      exact powerMiddle_mem_last (children t) (surroundedByParens par) 1
        ((children t).length - 1 - 1) i hi1 hfuel
        (fun j h1 h2 => htr j (by omega) h2) hval hleaf
    have hnc : PEvent.clear [i, (children ((children t).get i)).length - 1] ∉
        visitEv par t := by
      apply no_clear_pair_of_not_comp_if
      intro n hn
      rw [nodeAt_cons_get t i [] (by omega), nodeAt_nil] at hn
      cases hn
      rw [htr i (by omega) (by omega)]
      decide
    have hvalid : (annAt t [i, (children ((children t).get i)).length - 1]).isSome
        = true := by
      rw [annAt]
      rw [show ([i, (children ((children t).get i)).length - 1] : Path) =
        i :: [(children ((children t).get i)).length - 1] from rfl]
      rw [nodeAt_cons_get t i _ (by omega)]
      rw [nodeAt_cons_get _ _ _ (by omega), nodeAt_nil]
      rfl
    have := annGeV_suffix t [] (visitEv par t) _ UNBREAKABLE hmem hnc hvalid
    simpa using this
  · intro hsur hpos hleaf
    have hmem : PEvent.raiseTo [i + 1, 0] UNBREAKABLE ∈ visitEv par t := by
      rw [harm]
      apply List.mem_append.mpr; right
      apply List.mem_append.mpr; left
      rw [if_pos hcond]
      apply List.mem_append.mpr; right
      exact powerMiddle_mem_first (children t) (surroundedByParens par) 1
        ((children t).length - 1 - 1) i hi1 hfuel
        (fun j h1 h2 => htr j (by omega) h2) hsur hleaf
    have hnc : PEvent.clear [i + 1, 0] ∉ visitEv par t := by
      apply no_clear_pair_of_not_comp_if
      intro n hn
      rw [nodeAt_cons_get t (i + 1) [] (by omega), nodeAt_nil] at hn
      cases hn
      rw [htr (i + 1) (by omega) (by omega)]
      decide
    have hvalid : (annAt t [i + 1, 0]).isSome = true := by
      rw [annAt]
      rw [show ([i + 1, 0] : Path) = (i + 1) :: [0] from rfl]
      rw [nodeAt_cons_get t (i + 1) _ (by omega)]
      rw [nodeAt_cons_get _ _ _ (by omega), nodeAt_nil]
      rfl
    have := annGeV_suffix t [] (visitEv par t) _ UNBREAKABLE hmem hnc hvalid
    simpa using this

/-- `a()[0]`: a `power` node of an atom followed by an empty call trailer
and a subscript trailer, with no enclosing parentheses. -/
def exPowerEmptyCallChain : PyTree :=
  .node "power" none (ofList
    [.leaf "NAME" "a" none,
     .node "trailer" none (ofList [.leaf "LPAR" "(" none, .leaf "RPAR" ")" none]),
     .node "trailer" none (ofList
       [.leaf "LSQB" "[" none, .leaf "NUMBER" "0" none, .leaf "RSQB" "]" none])])

/-- Counterexample to C5 as stated: in `a()[0]` the first trailer `()` is
a call but not a non-empty one, so by the claim its closing paren would be
forced `UNBREAKABLE`; the code exempts every trailer ending in `)` and the
slot stays absent after the whole pass. -/
theorem power_middle_claim_counterexample :
    nodeName exPowerEmptyCallChain = "power"
    ∧ nodeName ((children exPowerEmptyCallChain).get 1) = "trailer"
    ∧ nodeName ((children exPowerEmptyCallChain).get 2) = "trailer"
    ∧ value ((children ((children exPowerEmptyCallChain).get 1)).get 0) = "("
    ∧ (children ((children exPowerEmptyCallChain).get 1)).length = 2
    ∧ annAt (ComputeSplitPenalties exPowerEmptyCallChain) [1, 1] = some none
    ∧ annAt (ComputeSplitPenalties exPowerEmptyCallChain) [1, 1] ≠
        some (some UNBREAKABLE) := by
  refine ⟨by decide, by decide, by decide, by decide, by decide, ?_, ?_⟩ <;>
    simp [ComputeSplitPenalties, visitEv, visitEvChildren, exPowerEmptyCallChain,
      ofList, children, nodeName, value, PyTree.isLeaf, PyForest.get,
      PyForest.length, PyForest.drop, RecAnnotateEv, RecAnnotateEvF, RecArithEv,
      RecArithEvF, scChildrenFromEv, markUnbreakableEv, powerMiddleEv, powerLastEv,
      scanIdx, surroundedByParens, shift, shiftE, applyEvents, applyEvent,
      updateAnnAt, updateAnnAtF, annAt, nodeAt, nodeAtF, getAnn, setAnn, omax,
      UNBREAKABLE, STRONGLY_CONNECTED, ARITHMETIC_EXPRESSION, dummy]

/-- Witness for the amended C5 on `a()[0]`: the subscript trailer's
opening bracket (first token of trailer 2) is forced unbreakable because
the chain is unparenthesized, while the `)` of the empty call is exempt
(shown in the counterexample). -/
theorem power_consecutive_trailers_amended_witness :
    annGeV (annAt (applyEvents exPowerEmptyCallChain
      (visitEv none exPowerEmptyCallChain)) [2, 0]) UNBREAKABLE := by
  have H := power_consecutive_trailers_amended none exPowerEmptyCallChain 1
    (by decide) (by decide) (by decide)
    (by intro j h1 h2; interval_cases j <;> decide)
  exact H.2 (by decide) (by decide) (by decide)

/-! ## Claim C6 (amended) -/

/-- `lambda x: x + y` as parsed: a `lambdef` node with a one-parameter
list, the colon, and an `arith_expr` body. -/
def exLambda : PyTree :=
  .node "lambdef" none (ofList
    [.leaf "NAME" "lambda" none, .leaf "NAME" "x" none, .leaf "COLON" ":" none,
     .node "arith_expr" none (ofList
       [.leaf "NAME" "x" none, .leaf "PLUS" "+" none, .leaf "NAME" "y" none])])

/-- Counterexample to C6 as stated: `_SetUnbreakableOnChildren` visits
every child of the lambda, including the body, so visiting `lambda x: x + y`
annotates the body leaf `y` (absent before, 42 after via the arithmetic
rule) — the body's leaves are visited and annotated during the lambda
rule, contrary to the claim. -/
theorem lambdef_body_visited_counterexample :
    nodeName exLambda = "lambdef"
    ∧ annAt exLambda [3, 2] = some none
    ∧ annAt (ComputeSplitPenalties exLambda) [3, 2] = some (some 42) := by
  refine ⟨by decide, by decide, ?_⟩
  simp [ComputeSplitPenalties, visitEv, visitEvChildren, exLambda,
    ofList, children, nodeName, value, PyTree.isLeaf, PyForest.get,
    PyForest.length, PyForest.drop, RecAnnotateEv, RecAnnotateEvF, RecArithEv,
    RecArithEvF, scChildrenFromEv, markUnbreakableEv, powerMiddleEv, powerLastEv,
    scanIdx, surroundedByParens, shift, shiftE, applyEvents, applyEvent,
    updateAnnAt, updateAnnAtF, annAt, nodeAt, nodeAtF, getAnn, setAnn, omax,
    UNBREAKABLE, STRONGLY_CONNECTED, ARITHMETIC_EXPRESSION, dummy]

/-- C6 amended: the lambda rule visits every child (so the body's leaves
receive whatever their own rules give them during that recursion) and then
marks every leaf of children `1 .. num_children - 1` (the parameter list
if present, and the colon) at least `UNBREAKABLE`; the keyword child 0 and
the children from `num_children` on (the body) receive nothing from the
lambda rule beyond the recursive visit itself. -/
theorem lambdef_amended (par : Option PyTree) (t : PyTree)
    (h : nodeName t = "lambdef") :
    (∀ k q, 1 ≤ k →
        k < (if nodeName ((children t).get 1) ≠ "COLON" then 3 else 2) →
        k < (children t).length → isLeafAt ((children t).get k) q = true →
        annGeV (annAt (applyEvents t (visitEv par t)) (k :: q)) UNBREAKABLE)
    ∧ (∀ k q,
        (k = 0 ∨ (if nodeName ((children t).get 1) ≠ "COLON" then 3 else 2) ≤ k) →
        annAt (applyEvents t (visitEv par t)) (k :: q) =
          annAt (applyEvents t (visitEvChildren t 0 (children t))) (k :: q)) := by
  have harm := visitEv_lambdef_arm par t h
  constructor
  · intro k q hk1 hknum hklen hleaf
    rw [harm]
    apply annGeV_suffix
    · apply mark_mem (children t) 1 _ k q hk1 ?_ hleaf
      by_cases hcol : nodeName ((children t).get 1) ≠ "COLON" <;>
        simp [hcol] at hknum ⊢ <;> omega
    · exact clear_not_in_markUnbreakableEv _ _ _ _
    · rw [annAt, nodeAt_cons_get t k q hklen]
      have hs := isSome_of_isLeafAt _ _ hleaf
      cases hn : nodeAt ((children t).get k) q with
      | none => rw [hn] at hs; simp at hs
      | some n => rfl
  · intro k q hk
    rw [harm, applyEvents_append]
    apply annAt_unchanged_of_no_target
    intro e he
    obtain ⟨j, q', hq, hj1, hj2⟩ := mark_targets _ _ _ e he
    rw [hq]
    intro hcon
    injection hcon with hkj _
    rcases hk with rfl | hk
    · omega
    · by_cases hcol : nodeName ((children t).get 1) ≠ "COLON" <;>
        simp [hcol] at hk hj2 <;> omega

/-- Witness for the amended C6 on `lambda x: x + y`: the colon (child 2)
ends at least `UNBREAKABLE`, and the body subtree (child 3) carries
exactly what the plain child recursion gives it. -/
theorem lambdef_amended_witness :
    annGeV (annAt (applyEvents exLambda (visitEv none exLambda)) [2]) UNBREAKABLE
    ∧ annAt (applyEvents exLambda (visitEv none exLambda)) [3, 2] =
        annAt (applyEvents exLambda
          (visitEvChildren exLambda 0 (children exLambda))) [3, 2] := by
  have H := lambdef_amended none exLambda (by decide)
  exact ⟨H.1 2 [] (by decide) (by decide) (by decide) (by decide),
    H.2 3 [2] (Or.inr (by decide))⟩

/-! ## Claim C7 -/

/-- `a()`: a `power` node of an atom followed by one empty call trailer. -/
def exPowerEmptyCall : PyTree :=
  .node "power" none (ofList
    [.leaf "NAME" "a" none,
     .node "trailer" none (ofList [.leaf "LPAR" "(" none, .leaf "RPAR" ")" none])])

/-- `f(1)`: a `power` node of an atom followed by one non-empty call
trailer. -/
def exPowerCall : PyTree :=
  .node "power" none (ofList
    [.leaf "NAME" "f" none,
     .node "trailer" none (ofList
       [.leaf "LPAR" "(" none, .leaf "NUMBER" "1" none, .leaf "RPAR" ")" none])])

/-- C7: in a `power` node, for a trailer inside the leading run of
trailers that is a call with a non-empty argument list (it opens with a
left paren and has more than two children), the final loop of
`Visit_power` forces its own closing parenthesis to at least
`UNBREAKABLE`; and an empty call `()` is exempt — after the whole pass on
`a()` its closing paren still has no annotation. -/
theorem power_call_closing_paren_unbreakable (par : Option PyTree) (t : PyTree)
    (i : Nat) (hname : nodeName t = "power")
    (hi1 : 1 ≤ i) (hi : i < (children t).length)
    (htr : ∀ j, 1 ≤ j → j ≤ i → nodeName ((children t).get j) = "trailer")
    (hop : value ((children ((children t).get i)).get 0) = "(")
    (hlen : 2 < (children ((children t).get i)).length)
    (hleaf : ((children ((children t).get i)).get
        ((children ((children t).get i)).length - 1)).isLeaf = true) :
    annGeV (annAt (applyEvents t (visitEv par t))
        [i, (children ((children t).get i)).length - 1]) UNBREAKABLE
    ∧ annAt (ComputeSplitPenalties exPowerEmptyCall) [1, 1] = some none := by
  constructor
  · have harm := visitEv_power_arm par t hname
    have hget : ((children t).drop 1).get (i - 1) = (children t).get i := by
      rw [dropF_get]
      congr 1
      omega
    have hmem : PEvent.raiseTo [i, (children ((children t).get i)).length - 1]
        UNBREAKABLE ∈ visitEv par t := by
      rw [harm]
      apply List.mem_append.mpr; right
      apply List.mem_append.mpr; right
      have := powerLast_mem ((children t).drop 1) 1 (i - 1)
        (by rw [dropF_length]; omega)
        (fun m hm => by rw [dropF_get]; exact htr (1 + m) (by omega) (by omega))
        (by rw [hget]; exact hop)
        (by rw [hget]; exact hlen)
        (by rw [hget]; exact hleaf)
      rw [hget] at this
      have harith : 1 + (i - 1) = i := by omega
      rw [harith] at this
      exact this
    have hnc : PEvent.clear [i, (children ((children t).get i)).length - 1] ∉
        visitEv par t :=
      no_clear_pair_of_ne_zero par t i _ (by omega)
    have hvalid : (annAt t [i, (children ((children t).get i)).length - 1]).isSome
        = true := by
      rw [annAt]
      rw [show ([i, (children ((children t).get i)).length - 1] : Path) =
        i :: [(children ((children t).get i)).length - 1] from rfl]
      rw [nodeAt_cons_get t i _ hi]
      rw [nodeAt_cons_get _ _ _ (by omega), nodeAt_nil]
      rfl
    have := annGeV_suffix t [] (visitEv par t) _ UNBREAKABLE hmem hnc hvalid
    simpa using this
  · simp [ComputeSplitPenalties, visitEv, visitEvChildren, exPowerEmptyCall,
      ofList, children, nodeName, value, PyTree.isLeaf, PyForest.get,
      PyForest.length, PyForest.drop, RecAnnotateEv, RecAnnotateEvF, RecArithEv,
      RecArithEvF, scChildrenFromEv, markUnbreakableEv, powerMiddleEv, powerLastEv,
      scanIdx, surroundedByParens, shift, shiftE, applyEvents, applyEvent,
      updateAnnAt, updateAnnAtF, annAt, nodeAt, nodeAtF, getAnn, setAnn, omax,
      UNBREAKABLE, STRONGLY_CONNECTED, ARITHMETIC_EXPRESSION, dummy]

/-- Witness for C7 on `f(1)`: the call's closing paren ends at least
`UNBREAKABLE`. -/
theorem power_call_closing_paren_unbreakable_witness :
    annGeV (annAt (applyEvents exPowerCall (visitEv none exPowerCall)) [1, 2])
      UNBREAKABLE := by
  have H := power_call_closing_paren_unbreakable none exPowerCall 1
    (by decide) (by decide) (by decide)
    (by intro j h1 h2; interval_cases j <;> decide)
    (by decide) (by decide) (by decide)
  exact H.1

/-! ## Claim C8 -/

/-- `class Foo(Base): pass` as parsed: a `classdef` node. -/
def exClassdef : PyTree :=
  .node "classdef" none (ofList
    [.leaf "NAME" "class" none, .leaf "NAME" "Foo" none, .leaf "LPAR" "(" none,
     .leaf "NAME" "Base" none, .leaf "RPAR" ")" none, .leaf "COLON" ":" none,
     .node "suite" none (ofList [.leaf "NAME" "pass" none])])

/-- C8: visiting a `classdef` node forces at least `UNBREAKABLE` on the
class-name token (child 1), on the opening paren of the base-class list
(child 2) when the node has more than 4 children, and on the colon
(second-to-last child); and the base-class list's own tokens are not
forced — after the whole pass on `class Foo(Base): pass` the slot of
`Base` is still absent. -/
theorem classdef_unbreakable_spec (par : Option PyTree) (t : PyTree)
    (hname : nodeName t = "classdef") (hlen : 4 ≤ (children t).length)
    (h1 : ((children t).get 1).isLeaf = true)
    (h2 : 4 < (children t).length → ((children t).get 2).isLeaf = true)
    (hc : ((children t).get ((children t).length - 2)).isLeaf = true) :
    annGeV (annAt (applyEvents t (visitEv par t)) [1]) UNBREAKABLE
    ∧ (4 < (children t).length →
        annGeV (annAt (applyEvents t (visitEv par t)) [2]) UNBREAKABLE)
    ∧ annGeV (annAt (applyEvents t (visitEv par t)) [(children t).length - 2])
        UNBREAKABLE
    ∧ annAt (ComputeSplitPenalties exClassdef) [3] = some none := by
  have harm := visitEv_classdef_arm par t hname
  have hvalid : ∀ i, i < (children t).length → (annAt t [i]).isSome = true := by
    intro i hi
    rw [annAt, show ([i] : Path) = i :: [] from rfl, nodeAt_cons_get t i [] hi,
      nodeAt_nil]
    rfl
  refine ⟨?_, ?_, ?_, ?_⟩
  · apply annGeV_suffix t [] (visitEv par t) _ _ ?_
      (no_clear_single_of_ne_zero par t 1 (by omega)) (hvalid 1 (by omega))
    rw [harm]
    apply List.mem_append.mpr; left
    apply List.mem_append.mpr; left
    apply List.mem_append.mpr; left
    rw [RecAnnotateEv_leaf _ _ h1]
    simp [shift, shiftE]
  · intro hgt
    apply annGeV_suffix t [] (visitEv par t) _ _ ?_
      (no_clear_single_of_ne_zero par t 2 (by omega)) (hvalid 2 (by omega))
    rw [harm]
    apply List.mem_append.mpr; left
    apply List.mem_append.mpr; left
    apply List.mem_append.mpr; right
    rw [if_pos hgt, RecAnnotateEv_leaf _ _ (h2 hgt)]
    simp [shift, shiftE]
  · apply annGeV_suffix t [] (visitEv par t) _ _ ?_
      (no_clear_single_of_ne_zero par t _ (by omega)) (hvalid _ (by omega))
    rw [harm]
    apply List.mem_append.mpr; left
    apply List.mem_append.mpr; right
    rw [RecAnnotateEv_leaf _ _ hc]
    simp [shift, shiftE]
  · simp [ComputeSplitPenalties, visitEv, visitEvChildren, exClassdef,
      ofList, children, nodeName, value, PyTree.isLeaf, PyForest.get,
      PyForest.length, PyForest.drop, RecAnnotateEv, RecAnnotateEvF, RecArithEv,
      RecArithEvF, scChildrenFromEv, markUnbreakableEv, powerMiddleEv, powerLastEv,
      scanIdx, surroundedByParens, shift, shiftE, applyEvents, applyEvent,
      updateAnnAt, updateAnnAtF, annAt, nodeAt, nodeAtF, getAnn, setAnn, omax,
      UNBREAKABLE, STRONGLY_CONNECTED, ARITHMETIC_EXPRESSION, dummy]

/-- Witness for C8 on `class Foo(Base): pass`: class name, open paren and
colon all end at least `UNBREAKABLE`. -/
theorem classdef_unbreakable_spec_witness :
    annGeV (annAt (applyEvents exClassdef (visitEv none exClassdef)) [1]) UNBREAKABLE
    ∧ annGeV (annAt (applyEvents exClassdef (visitEv none exClassdef)) [5])
        UNBREAKABLE := by
  have H := classdef_unbreakable_spec none exClassdef (by decide) (by decide)
    (by decide) (fun _ => by decide) (by decide)
  exact ⟨H.1, by simpa using H.2.2.1⟩

/-! ## Claim C9: machinery for the dictsetmaker loop -/

theorem visitEv_leaf_comma (par : Option PyTree) (t : PyTree)
    (hleaf : t.isLeaf = true) (hname : nodeName t = "COMMA") :
    visitEv par t = [] := by
  simp [visitEv, hname, hleaf]

/-- The loop of `Visit_dictsetmaker`, cut at a colon child: everything up
to and including the visit of the colon child forms a prefix, followed by
the strong connection of the previous child, the strong connection of the
colon itself, and the remaining iterations. -/
theorem dictsetEv_colon_split (par : PyTree) (f : PyForest) (s : Nat)
    (prev : Option (Nat × PyTree)) (m : Nat) (h1 : 1 ≤ m) (hm : m < f.length)
    (hcol : nodeName (f.get m) = "COLON") :
    ∃ E₁ : List PEvent, dictsetEv par s prev f =
      E₁ ++ (shift (s + m - 1) (RecAnnotateEv STRONGLY_CONNECTED (f.get (m - 1))) ++
        (shift (s + m) (RecAnnotateEv STRONGLY_CONNECTED (f.get m)) ++
         dictsetEv par (s + m + 1) (some (s + m, f.get m)) (f.drop (m + 1)))) := by
  match f, m with
  | .nil, m => simp [PyForest.length] at hm
  | .cons c .nil, 1 => simp [PyForest.length] at hm
  | .cons c (.cons c2 rest2), 1 =>
    have hc2 : nodeName c2 = "COLON" := by simpa [PyForest.get] using hcol
    refine ⟨shift s (visitEv (some par) c) ++
      (if nodeName c = "COLON" then
        (match prev with
         | some pr => shift pr.1 (RecAnnotateEv STRONGLY_CONNECTED pr.2)
         | none => []) ++ shift s (RecAnnotateEv STRONGLY_CONNECTED c)
       else []) ++ shift (s + 1) (visitEv (some par) c2), ?_⟩
    rw [dictsetEv.eq_def]
    simp only []
    rw [dictsetEv.eq_def]
    simp only [hc2, if_pos]
    simp [PyForest.get, PyForest.drop, List.append_assoc]
  | .cons c rest, m + 2 =>
    have hm' : m + 1 < rest.length := by simp [PyForest.length] at hm; omega
    have hcol' : nodeName (rest.get (m + 1)) = "COLON" := by
      simpa [PyForest.get] using hcol
    obtain ⟨E₁', hE⟩ := dictsetEv_colon_split par rest (s + 1) (some (s, c))
      (m + 1) (by omega) hm' hcol'
    refine ⟨shift s (visitEv (some par) c) ++
      (if nodeName c = "COLON" then
        (match prev with
         | some pr => shift pr.1 (RecAnnotateEv STRONGLY_CONNECTED pr.2)
         | none => []) ++ shift s (RecAnnotateEv STRONGLY_CONNECTED c)
       else []) ++ E₁', ?_⟩
    rw [dictsetEv.eq_def]
    simp only []
    rw [hE]
    have e1 : s + 1 + (m + 1) - 1 = s + (m + 2) - 1 := by omega
    have e2 : s + 1 + (m + 1) = s + (m + 2) := by omega
    have e3 : rest.get (m + 1 - 1) = (PyForest.cons c rest).get (m + 2 - 1) := by
      simp [PyForest.get]
    have e4 : rest.get (m + 1) = (PyForest.cons c rest).get (m + 2) := by
      simp [PyForest.get]
    have e5 : rest.drop (m + 1 + 1) = (PyForest.cons c rest).drop (m + 2 + 1) := by
      simp [PyForest.drop]
    rw [e1, e2, e3, e4, e5]
    simp [List.append_assoc]

/-- No event of the `Visit_dictsetmaker` loop targets the slot of a comma
separator whose successor is not a colon. -/
theorem dictset_comma_no_target (par : PyTree) (f : PyForest) (s : Nat)
    (prev : Option (Nat × PyTree)) (j : Nat)
    (hA : ∀ m, m < f.length → s + m = j →
        ((f.get m).isLeaf = true ∧ nodeName (f.get m) = "COMMA"))
    (hB : ∀ m, m < f.length → s + m = j + 1 → nodeName (f.get m) ≠ "COLON")
    (hprev : ∀ pr, prev = some pr → pr.1 + 1 = s) :
    ∀ e ∈ dictsetEv par s prev f, e.target ≠ [j] := by
  match f with
  | .nil => rw [dictsetEv.eq_def]; simp
  | .cons c rest =>
    intro e he
    rw [dictsetEv.eq_def] at he
    simp only [] at he
    have hlen0 : 0 < (PyForest.cons c rest).length := by simp [PyForest.length]
    rcases List.mem_append.mp he with he | he
    · rcases List.mem_append.mp he with he | he
      · by_cases hsj : s = j
        · obtain ⟨hcl, hcn⟩ := hA 0 hlen0 (by omega)
          rw [visitEv_leaf_comma (some par) c (by simpa [PyForest.get] using hcl)
            (by simpa [PyForest.get] using hcn)] at he
          simp [shift] at he
        · obtain ⟨q, hq⟩ := target_mem_shift s _ e he
          rw [hq]
          intro hcon
          injection hcon with h1 _
          exact hsj h1
      · split at he
        · rename_i hcolc
          rcases List.mem_append.mp he with he | he
          · match hp : prev with
            | none => simp at he
            | some pr =>
              simp only [] at he
              obtain ⟨q, hq⟩ := target_mem_shift pr.1 _ e he
              rw [hq]
              intro hcon
              injection hcon with hh _
              have hs : pr.1 + 1 = s := hprev pr rfl
              have : s = j + 1 := by omega
              exact hB 0 hlen0 (by omega) (by simpa [PyForest.get] using hcolc)
          · obtain ⟨q, hq⟩ := target_mem_shift s _ e he
            rw [hq]
            intro hcon
            injection hcon with hh _
            obtain ⟨_, hcn⟩ := hA 0 hlen0 (by omega)
            rw [show (PyForest.cons c rest).get 0 = c from rfl] at hcn
            rw [hcn] at hcolc
            simp at hcolc
        · simp at he
    · apply dictset_comma_no_target par rest (s + 1) (some (s, c)) j ?_ ?_ ?_ e he
      · intro m hmlt hmj
        have := hA (m + 1) (by simp [PyForest.length]; omega) (by omega)
        simpa [PyForest.get] using this
      · intro m hmlt hmj
        have := hB (m + 1) (by simp [PyForest.length]; omega) (by omega)
        simpa [PyForest.get] using this
      · intro pr hpr
        cases hpr
        rfl

/-- The inner children of `{1: 2, 3: 4}` as a `dictsetmaker` node. -/
def exDict : PyTree :=
  .node "dictsetmaker" none (ofList
    [.leaf "NUMBER" "1" none, .leaf "COLON" ":" none, .leaf "NUMBER" "2" none,
     .leaf "COMMA" "," none, .leaf "NUMBER" "3" none, .leaf "COLON" ":" none,
     .leaf "NUMBER" "4" none])

/-- C9: when visiting a `dictsetmaker` node, for every direct child that
is a COLON separator, both that colon and every leaf of the immediately
preceding child (the key expression) end at least `STRONGLY_CONNECTED`;
and a comma-separator leaf whose successor is not a colon receives nothing
at all from this rule (its slot is exactly what it was before the visit,
so it stays absent unless another rule writes it). -/
theorem dictsetmaker_colon_spec (par : Option PyTree) (t : PyTree)
    (hname : nodeName t = "dictsetmaker") :
    (∀ i, i < (children t).length → 1 ≤ i →
      nodeName ((children t).get i) = "COLON" →
      (∀ q, isLeafAt ((children t).get (i - 1)) q = true →
        annGeV (annAt (applyEvents t (visitEv par t)) ((i - 1) :: q))
          STRONGLY_CONNECTED)
      ∧ (((children t).get i).isLeaf = true →
        annGeV (annAt (applyEvents t (visitEv par t)) [i]) STRONGLY_CONNECTED))
    ∧ (∀ j, j < (children t).length → ((children t).get j).isLeaf = true →
        nodeName ((children t).get j) = "COMMA" →
        (∀ m, m < (children t).length → m = j + 1 →
          nodeName ((children t).get m) ≠ "COLON") →
        annAt (applyEvents t (visitEv par t)) [j] = annAt t [j]) := by
  have harm := visitEv_dictsetmaker_arm par t hname
  constructor
  · intro i hi hi1 hcol
    obtain ⟨E₁, hE⟩ := dictsetEv_colon_split t (children t) 0 none i hi1 hi hcol
    simp only [Nat.zero_add] at hE
    have htail_noclear : ∀ p : Path, (∀ hd q', p = hd :: q' → hd < i + 1) →
        PEvent.clear p ∉
          dictsetEv t (i + 1) (some (i, (children t).get i)) ((children t).drop (i + 1)) := by
      intro p hp hmem
      obtain ⟨jj, q', hjj, heq, _⟩ := clear_in_dictsetEv t (i + 1) _ _ p hmem
      have := hp (i + 1 + jj) q' heq
      omega
    constructor
    · intro q hleaf
      rw [harm, hE]
      apply annGeV_suffix
      · apply List.mem_append.mpr
        left
        exact raise_mem_shift (i - 1) _ q _ (raise_mem_RecAnnotateEv _ _ q hleaf)
      · intro hmem
        rcases List.mem_append.mp hmem with hmem | hmem
        · rcases (clear_mem_shift _ _ _).mp hmem with ⟨q', _, hm⟩
          exact clear_not_in_RecAnnotateEv _ _ q' hm
        rcases List.mem_append.mp hmem with hmem | hmem
        · rcases (clear_mem_shift _ _ _).mp hmem with ⟨q', _, hm⟩
          exact clear_not_in_RecAnnotateEv _ _ q' hm
        · exact htail_noclear _ (by intro hd q' heq; injection heq with h1 _; omega)
            hmem
      · rw [annAt, nodeAt_cons_get t (i - 1) q (by omega)]
        have hs := isSome_of_isLeafAt _ _ hleaf
        cases hn : nodeAt ((children t).get (i - 1)) q with
        | none => rw [hn] at hs; simp at hs
        | some n => rfl
    · intro hleaf
      rw [harm, hE]
      rw [show E₁ ++ (shift (i - 1) (RecAnnotateEv STRONGLY_CONNECTED
          ((children t).get (i - 1))) ++
          (shift i (RecAnnotateEv STRONGLY_CONNECTED ((children t).get i)) ++
           dictsetEv t (i + 1) (some (i, (children t).get i))
             ((children t).drop (i + 1)))) =
        (E₁ ++ shift (i - 1) (RecAnnotateEv STRONGLY_CONNECTED
          ((children t).get (i - 1)))) ++
          (shift i (RecAnnotateEv STRONGLY_CONNECTED ((children t).get i)) ++
           dictsetEv t (i + 1) (some (i, (children t).get i))
             ((children t).drop (i + 1))) from by simp [List.append_assoc]]
      apply annGeV_suffix
      · apply List.mem_append.mpr
        left
        rw [RecAnnotateEv_leaf _ _ hleaf]
        simp [shift, shiftE]
      · intro hmem
        rcases List.mem_append.mp hmem with hmem | hmem
        · rcases (clear_mem_shift _ _ _).mp hmem with ⟨q', _, hm⟩
          exact clear_not_in_RecAnnotateEv _ _ q' hm
        · exact htail_noclear _ (by intro hd q' heq; injection heq with h1 _; omega)
            hmem
      · rw [annAt, show ([i] : Path) = i :: [] from rfl, nodeAt_cons_get t i [] hi,
          nodeAt_nil]
        rfl
  · intro j hj hleaf hcomma hsucc
    rw [harm]
    apply annAt_unchanged_of_no_target
    apply dictset_comma_no_target t (children t) 0 none j
    · intro m hm hmj
      have : m = j := by omega
      subst this
      exact ⟨hleaf, hcomma⟩
    · intro m hm hmj
      exact hsucc m hm (by omega)
    · intro pr hpr
      cases hpr

/-- Witness for C9 on `{1: 2, 3: 4}`: the first key and its colon end at
least `STRONGLY_CONNECTED`, and the comma separator's slot is untouched
(stays absent). -/
theorem dictsetmaker_colon_spec_witness :
    annGeV (annAt (applyEvents exDict (visitEv none exDict)) [0]) STRONGLY_CONNECTED
    ∧ annGeV (annAt (applyEvents exDict (visitEv none exDict)) [1]) STRONGLY_CONNECTED
    ∧ annAt (applyEvents exDict (visitEv none exDict)) [3] = annAt exDict [3] := by
  have H := dictsetmaker_colon_spec none exDict (by decide)
  have H1 := H.1 1 (by decide) (by decide) (by decide)
  refine ⟨?_, H1.2 (by decide), ?_⟩
  · have := H1.1 [] (by decide)
    simpa using this
  · exact H.2 3 (by decide) (by decide) (by decide)
      (by intro m h1 h2; subst h2; decide)

end SplitPenaltyModel